import Mathlib

/-!
A verification development for the student-data processing script
(`main.py`).  The script's record pipeline
(validate → deduplicate → encrypt → low-score flag → aggregate) is
shallowly embedded here:

* Python dictionaries (`dict`) become association lists
  `List (String × Value)` with the operations `getField` (subscript /
  `.get`), `dictSet` (subscript assignment: replace in place when the
  key is present, append otherwise) and `dictUpdate` (`dict.update`:
  fold the right dictionary's pairs into the left one).
* Python values occurring in the JSON records become the inductive
  `Value` (strings, numbers as exact rationals, booleans, `None`).
  Python's `bool` is a subclass of `int`, so `isinstance(x, (int, float))`
  is true for booleans and `True`/`False` count as `1`/`0` in
  arithmetic; `Value.isNumeric` and `Value.toRat` encode exactly that.
* Exceptions (`KeyError` from `d[k]` on a missing key, `TypeError` from
  `re.match` applied to a non-string) become the `Except PyErr` monad.
* The AES block cipher supplied by the `cryptography` library is an
  external collaborator; it enters the model as an abstract block
  function (16-byte blocks of bytes) while the CFB chaining, the hex
  encoding and the IV-prefix layout of `encrypt_field`/`decrypt_field`
  are modelled from the source.
* Randomness (`os.urandom`) is modelled by passing the drawn IV / the
  keyed cipher explicitly.
-/

/-- A Python value as it occurs in the student records: a string, a
number (`int`/`float`, modelled exactly as a rational), a boolean or
`None`. -/
inductive Value where
  | str : String → Value
  | num : ℚ → Value
  | bool : Bool → Value
  | null : Value
deriving DecidableEq

/-- Python truthiness (`bool(v)`) for the values above: the empty
string, `0`, `False` and `None` are falsy, everything else is truthy. -/
def truthy : Value → Bool
  | .str s => !s.isEmpty
  | .num q => decide (q ≠ 0)
  | .bool b => b
  | .null => false

/-- `isinstance(v, (int, float))`.  Python's `bool` is a subclass of
`int`, so booleans count as numeric. -/
def Value.isNumeric : Value → Bool
  | .num _ => true
  | .bool _ => true
  | _ => false

/-- The numeric value of a numeric `Value`; `True` counts as `1` and
`False` as `0`, as in Python arithmetic.  (`0` for non-numeric values,
which is never used on them.) -/
def Value.toRat : Value → ℚ
  | .num q => q
  | .bool b => if b then 1 else 0
  | _ => 0

/-- A student record: a Python `dict` with string keys, modelled as an
association list in insertion order. -/
abbrev Record := List (String × Value)

/-- Dictionary lookup `r[k]` / `r.get(k)`: the value of the first
(in a real `dict`: the only) entry with key `k`. -/
def getField : Record → String → Option Value
  | [], _ => none
  | p :: ps, k => if p.1 = k then some p.2 else getField ps k

/-- Dictionary assignment `r[k] = v`: when the key is present the value
is replaced in place (the entry keeps its position), otherwise the new
pair is appended at the end — Python `dict` assignment semantics. -/
def dictSet (r : Record) (k : String) (v : Value) : Record :=
  if r.any (fun p => decide (p.1 = k)) then
    r.map (fun p => if p.1 = k then (k, v) else p)
  else
    r ++ [(k, v)]

/-- `r.update(s)`: fold the pairs of `s` into `r` in order, each by
dictionary assignment. -/
def dictUpdate (r s : Record) : Record :=
  s.foldl (fun acc p => dictSet acc p.1 p.2) r

/-- `"_suffix" in`-style test `k.endswith(suffix)` on strings, as a
suffix test on the character lists. -/
def strEndsWith (k suffix : String) : Bool :=
  suffix.data.isSuffixOf k.data

/-- A record has unique keys — the invariant every real Python `dict`
satisfies by construction. -/
def uniqKeys (r : Record) : Prop := (r.map Prod.fst).Nodup

/-- The Python exceptions the pipeline can raise: `KeyError` from
subscripting a `dict` with a missing key, `TypeError` from `re.match`
applied to a non-string, non-bytes object. -/
inductive PyErr where
  | keyError
  | typeError
deriving DecidableEq

/-- `StudentDataProcessor.REQUIRED_FIELDS`. -/
def REQUIRED_FIELDS : List String := ["id", "first_name", "last_name", "email"]

/-- The list comprehension inside `validate_student_record`:
`[field for field in REQUIRED_FIELDS if field not in record or not record[field]]`. -/
def missingFields (r : Record) : List String :=
  REQUIRED_FIELDS.filter (fun f =>
    match getField r f with
    | none => true
    | some v => !truthy v)

/-- All four required fields are present with truthy values. -/
def requiredTruthy (r : Record) : Bool :=
  REQUIRED_FIELDS.all (fun f =>
    match getField r f with
    | none => false
    | some v => truthy v)

/-- Character class `[a-zA-Z0-9_.+-]` of the local part of
`EMAIL_REGEX`. -/
def isLocalChar (c : Char) : Bool :=
  c.isAlphanum || c = '_' || c = '.' || c = '+' || c = '-'

/-- Character class `[a-zA-Z0-9-]` of the host label of `EMAIL_REGEX`. -/
def isHostChar (c : Char) : Bool :=
  c.isAlphanum || c = '-'

/-- Character class `[a-zA-Z0-9-.]` of the domain tail of
`EMAIL_REGEX`. -/
def isTailChar (c : Char) : Bool :=
  c.isAlphanum || c = '-' || c = '.'

/-- `re.match(EMAIL_REGEX, s)` succeeds, for
`EMAIL_REGEX = ^[a-zA-Z0-9_.+-]+@[a-zA-Z0-9-]+\.[a-zA-Z0-9-.]+$`.
None of the three classes contains `@`, and the host class contains no
`.`, so the greedy `+` groups are the maximal runs and the regex match
is equivalent to this deterministic split. -/
def emailMatches (s : String) : Bool :=
  let a := s.data.takeWhile isLocalChar
  match s.data.dropWhile isLocalChar with
  | '@' :: r₂ =>
    let b := r₂.takeWhile isHostChar
    (match r₂.dropWhile isHostChar with
     | '.' :: r₄ => !a.isEmpty && !b.isEmpty && !r₄.isEmpty && r₄.all isTailChar
     | _ => false)
  | _ => false

/-- `validate_student_record`.  Returns `False` when a required field is
absent or falsy; otherwise the email is matched against `EMAIL_REGEX`
only to log a warning — a mismatch does not cause rejection and the
method returns `True`.  `re.match` applied to a truthy non-string email
value raises `TypeError` (that path performs
`re.match(pattern, record.get("email", ""))` with no surrounding
`try`). -/
def validate (r : Record) : Except PyErr Bool :=
  if missingFields r ≠ [] then .ok false
  else
    match getField r "email" with
    | some (.str _) => .ok true
    | some _ => .error .typeError
    | none => .ok true

/-- The fixed subject list of `calculate_summary_metrics`. -/
def SUBJECTS : List String :=
  ["math_score", "history_score", "physics_score", "chemistry_score",
   "biology_score", "english_score", "geography_score"]

/-- The score-collection loop of `calculate_summary_metrics`: for each
student, append `student[subject]` when the key is present and the
value is an `int`/`float` (booleans included, counting as 1/0). -/
def subjectScores (data : List Record) (subject : String) : List ℚ :=
  data.filterMap (fun st =>
    match getField st subject with
    | some v => if v.isNumeric then some v.toRat else none
    | none => none)

/-- `statistics.mean`: the exact arithmetic mean. -/
def listMean (l : List ℚ) : ℚ := l.sum / l.length

/-- `statistics.median`: middle element of the sorted list, or the
average of the two middle elements for an even number of samples. -/
def listMedian (l : List ℚ) : ℚ :=
  let s := List.insertionSort (· ≤ ·) l
  let n := l.length
  if n % 2 = 1 then s.getD (n / 2) 0
  else (s.getD (n / 2 - 1) 0 + s.getD (n / 2) 0) / 2

/-- The sample variance used by `statistics.stdev`: squared deviations
from the mean, divided by `n - 1`. -/
def sampleVariance (l : List ℚ) : ℚ :=
  (l.map (fun x => (x - listMean l) ^ 2)).sum / ((l.length : ℚ) - 1)

/-- The population variance — the quantity named by the spec's words
"population standard deviation" (squared).  This is the spec-side
definition used to compare against the code's `statistics.stdev`. -/
def populationVariance (l : List ℚ) : ℚ :=
  (l.map (fun x => (x - listMean l) ^ 2)).sum / (l.length : ℚ)

/-- `Real.sqrt` of the population variance: the population standard
deviation of the spec's words. -/
noncomputable def populationStdev (l : List ℚ) : ℝ :=
  Real.sqrt ((populationVariance l : ℚ) : ℝ)

/-- Python `max(l)` for nonempty `l`. -/
def listMax : List ℚ → ℚ
  | [] => 0
  | x :: xs => xs.foldl max x

/-- Python `min(l)` for nonempty `l`. -/
def listMin : List ℚ → ℚ
  | [] => 0
  | x :: xs => xs.foldl min x

/-- One entry of the `subject_metrics` dictionary. -/
structure SubjectMetrics where
  mean : ℚ
  median : ℚ
  stdev : ℝ
  max : ℚ
  min : ℚ

/-- The per-subject dictionary built by `calculate_summary_metrics`:
`statistics.mean(scores) if scores else 0`, likewise for the median,
`statistics.stdev(scores) if len(scores) > 1 else 0` (the *sample*
standard deviation, `sqrt` of the sum of squared deviations over
`n - 1`), and `max`/`min` guarded by emptiness. -/
noncomputable def calcSubjectMetrics (data : List Record) (subject : String) :
    SubjectMetrics :=
  let scores := subjectScores data subject
  { mean := if scores.isEmpty then 0 else listMean scores
    median := if scores.isEmpty then 0 else listMedian scores
    stdev := if 1 < scores.length then Real.sqrt ((sampleVariance scores : ℚ) : ℝ) else 0
    max := if scores.isEmpty then 0 else listMax scores
    min := if scores.isEmpty then 0 else listMin scores }

/-- The `subject_metrics` part of `calculate_summary_metrics`: one
metrics entry per subject of the fixed list. -/
noncomputable def calculate_summary_metrics (data : List Record) :
    List (String × SubjectMetrics) :=
  SUBJECTS.map (fun s => (s, calcSubjectMetrics data s))

/-- Lowercase hexadecimal digit, as produced by Python's
`bytes.hex()`: digits `0`-`9` then letters `a`-`f`. -/
def hexDigitChar (n : ℕ) : Char :=
  if n < 10 then Char.ofNat ('0'.toNat + n) else Char.ofNat ('a'.toNat + (n - 10))

/-- One byte as two lowercase hex characters. -/
def byteToHex (b : ℕ) : List Char := [hexDigitChar (b / 16), hexDigitChar (b % 16)]

/-- `bytes.hex()`: a byte string as its hex character string. -/
def bytesToHex : List ℕ → List Char
  | [] => []
  | b :: bs => byteToHex b ++ bytesToHex bs

/-- The numeric value of one hex digit; `bytes.fromhex` accepts both
letter cases and rejects anything else. -/
def hexDigitVal (c : Char) : Option ℕ :=
  if '0' ≤ c ∧ c ≤ '9' then some (c.toNat - '0'.toNat)
  else if 'a' ≤ c ∧ c ≤ 'f' then some (c.toNat - 'a'.toNat + 10)
  else if 'A' ≤ c ∧ c ≤ 'F' then some (c.toNat - 'A'.toNat + 10)
  else none

/-- `bytes.fromhex`: parse hex pairs, failing (raising `ValueError`) on
an odd length or a non-hex character. -/
def hexToBytes : List Char → Option (List ℕ)
  | [] => some []
  | [_] => none
  | c₁ :: c₂ :: rest =>
    match hexDigitVal c₁, hexDigitVal c₂, hexToBytes rest with
    | some h, some l, some bs => some ((16 * h + l) :: bs)
    | _, _, _ => none

/-- CFB-mode encryption with full-block (128-bit) feedback, as the
`cryptography` library's `modes.CFB` performs it: each 16-byte
plaintext chunk is XORed with the block encryption of the previous
ciphertext block (initially the IV); a final partial chunk uses the
truncated keystream.  `E` is the AES block encryption under the
processor's fixed 32-byte key — an external collaborator, abstract
here. -/
def cfbEncrypt (E : List ℕ → List ℕ) (prev : List ℕ) : List ℕ → List ℕ
  | [] => []
  | p :: ps =>
    let c := List.zipWith (· ^^^ ·) ((p :: ps).take 16) (E prev)
    c ++ cfbEncrypt E c ((p :: ps).drop 16)
termination_by pt => pt.length
decreasing_by simp; omega

/-- CFB-mode decryption: XOR each ciphertext chunk with the block
encryption of the previous ciphertext block (initially the IV). -/
def cfbDecrypt (E : List ℕ → List ℕ) (prev : List ℕ) : List ℕ → List ℕ
  | [] => []
  | c :: cs =>
    let chunk := (c :: cs).take 16
    let p := List.zipWith (· ^^^ ·) chunk (E prev)
    p ++ cfbDecrypt E chunk ((c :: cs).drop 16)
termination_by ct => ct.length
decreasing_by simp; omega

/-- `encrypt_field`: `None` for a falsy (empty) field, otherwise
`iv.hex() + ciphertext.hex()` — the hex of the random 16-byte IV
concatenated with the hex of the CFB ciphertext of the field's UTF-8
bytes.  Strings are modelled by their character lists and the plaintext
by its UTF-8 byte sequence (the encoding itself is the external
collaborator); the freshly drawn IV is passed explicitly. -/
def encrypt_field (E : List ℕ → List ℕ) (iv ptBytes : List ℕ) : Option (List Char) :=
  if ptBytes.isEmpty then none
  else some (bytesToHex iv ++ bytesToHex (cfbEncrypt E iv ptBytes))

/-- The decryption core of `decrypt_field`: split the stored string
into the 32-hex-character IV prefix and the remaining hex ciphertext
(`bytes.fromhex` fails on malformed input), then CFB-decrypt with the
same keyed block cipher.  The final UTF-8 decode is external, so the
recovered byte sequence is returned. -/
def decrypt_stored (E : List ℕ → List ℕ) (stored : List Char) : Option (List ℕ) :=
  match hexToBytes (stored.take 32), hexToBytes (stored.drop 32) with
  | some iv, some ct => some (cfbDecrypt E iv ct)
  | _, _ => none

/-- The deduplication identity: the
`(first_name, last_name, email)` triple of `.get` lookups. -/
abbrev Ident := Option Value × Option Value × Option Value

/-- The `student_identifier` built in `process_student_data`. -/
def identOf (r : Record) : Ident :=
  (getField r "first_name", getField r "last_name", getField r "email")

/-- One entry of the class-level `low_score_requests` batch: the
payload dictionary built by `check_for_low_scores`.  Its fields are the
record's subscript lookups (always present for the validated records
the method is called on). -/
structure Payload where
  id : Option Value
  first_name : Option Value
  last_name : Option Value
  email : Option Value
  low_scores : List (String × Value)
deriving DecidableEq

/-- The `low_score_subjects` dict comprehension: the fields whose key
ends in `"_score"` and whose value is numeric (`int`/`float`, booleans
included) and strictly below 65. -/
def lowScoreSubjects (r : Record) : List (String × Value) :=
  r.filter (fun p =>
    strEndsWith p.1 "_score" && p.2.isNumeric && decide (p.2.toRat < 65))

/-- `check_for_low_scores`: when low-score subjects exist, append the
payload to the pending batch; otherwise leave the batch unchanged.  No
network request is made here — `requests.post` occurs only in
`post_low_scores`. -/
def check_for_low_scores (queue : List Payload) (r : Record) : List Payload :=
  if (lowScoreSubjects r).isEmpty then queue
  else
    queue ++ [{ id := getField r "id"
                first_name := getField r "first_name"
                last_name := getField r "last_name"
                email := getField r "email"
                low_scores := lowScoreSubjects r }]

/-- The assignment `student["email"] = self.encrypt_field(student["email"])`
on a truthy email value: for a string, encryption succeeds and yields
the stored hex string (abstracted into the one-call encryption function
`enc`); for a truthy non-string, `encrypt_field`'s internal
`try/except` returns `None`. -/
def encryptValue (enc : String → String) : Value → Value
  | .str s => .str (enc s)
  | _ => .null

/-- The processor state touched by `process_student_data`: the
class-level `seen_students` set and `low_score_requests` batch, and the
call-local `valid_students` insertion-ordered dictionary. -/
structure PState where
  seen : List Ident
  queue : List Payload
  valid : List (Ident × Record)

/-- `valid_students[ident]` lookup. -/
def dictFindD : List (Ident × Record) → Ident → Option Record
  | [], _ => none
  | p :: ps, i => if p.1 = i then some p.2 else dictFindD ps i

/-- `valid_students[ident] = r`: replace in place when present, append
otherwise (Python `dict` assignment). -/
def dictSetD (d : List (Ident × Record)) (i : Ident) (r : Record) :
    List (Ident × Record) :=
  if d.any (fun p => decide (p.1 = i)) then
    d.map (fun p => if p.1 = i then (i, r) else p)
  else d ++ [(i, r)]

/-- One iteration of the loop in `process_student_data`: validate;
on a duplicate identity, merge into the stored record via
`dict.update` (a missing `valid_students` entry raises `KeyError`);
on a fresh identity, encrypt a truthy email, run the low-score check on
the (already encrypted) record and store it. -/
def processStep (enc : String → String) (st : PState) (student : Record) :
    Except PyErr PState :=
  match validate student with
  | .error e => .error e
  | .ok false => .ok st
  | .ok true =>
    if identOf student ∈ st.seen then
      match dictFindD st.valid (identOf student) with
      | none => .error .keyError
      | some r =>
        .ok { st with valid := dictSetD st.valid (identOf student) (dictUpdate r student) }
    else
      match getField student "email" with
      | none => .error .keyError
      | some ev =>
        let student2 :=
          if truthy ev then dictSet student "email" (encryptValue enc ev) else student
        .ok { seen := identOf student :: st.seen
              queue := check_for_low_scores st.queue student2
              valid := dictSetD st.valid (identOf student) student2 }

/-- The loop of `process_student_data` over the input list; an uncaught
exception aborts the whole loop. -/
def processList (enc : String → String) (st : PState) :
    List Record → Except PyErr PState
  | [] => .ok st
  | r :: rs =>
    match processStep enc st r with
    | .error e => .error e
    | .ok st' => processList enc st' rs

/-- `process_student_data` on one call: `valid_students` starts empty
while `seen_students` and `low_score_requests` carry over (class-level
state); the return value is `list(valid_students.values())`. -/
def process_student_data (enc : String → String) (seen0 : List Ident)
    (q0 : List Payload) (L : List Record) : Except PyErr (List Record × PState) :=
  match processList enc ⟨seen0, q0, []⟩ L with
  | .error e => .error e
  | .ok st => .ok (st.valid.map Prod.snd, st)

/-- `handle_missing_null_malformed_data` on one record: drop the
null-valued fields. -/
def cleanRecord (r : Record) : Record :=
  r.filter (fun p => decide (p.2 ≠ Value.null))

/-- `handle_missing_null_malformed_data`. -/
def handle_missing_null_malformed_data (data : List Record) : List Record :=
  data.map cleanRecord

/-- The fetch-miss path of `fetch_and_process_student_data` after the
raw JSON list has been fetched and parsed: clean, then process; its
`try/except Exception` turns any uncaught exception of the pipeline
into an empty result list. -/
def fetch_and_process_student_data (enc : String → String) (seen0 : List Ident)
    (q0 : List Payload) (raw : List Record) : List Record :=
  match process_student_data enc seen0 q0 (handle_missing_null_malformed_data raw) with
  | .ok (out, _) => out
  | .error _ => []

/-- The internal consistency of one fresh run: every seen identity has
a `valid_students` entry and vice versa.  It holds along any call that
started with `seen_students` empty — and is exactly what breaks on a
second call. -/
def PInv (st : PState) : Prop :=
  (∀ i ∈ st.seen, (dictFindD st.valid i).isSome) ∧ (∀ p ∈ st.valid, p.1 ∈ st.seen)

/-- A record that validates without an exception and, when valid, has
an identity different from `K` — the side condition of the
two-duplicates claim for the surrounding records. -/
def okAvoiding (K : Ident) (r : Record) : Prop :=
  ∃ b, validate r = .ok b ∧ (b = true → identOf r ≠ K)

section RecordLemmas

theorem getField_nil (k : String) : getField [] k = none := rfl

theorem getField_cons (p : String × Value) (ps : Record) (k : String) :
    getField (p :: ps) k = if p.1 = k then some p.2 else getField ps k := rfl

theorem getField_append (r₁ r₂ : Record) (k : String) :
    getField (r₁ ++ r₂) k = (getField r₁ k).orElse (fun _ => getField r₂ k) := by
  induction r₁ with
  | nil => simp [getField, Option.orElse]
  | cons p ps ih =>
    by_cases h : p.1 = k <;> simp [getField, h, ih, Option.orElse]

/-- Lookup after the in-place map used by `dictSet` when the key is
present: the result is `v` exactly when the key was present. -/
theorem getField_mapSet (r : Record) (k : String) (v : Value) :
    getField (r.map (fun p => if p.1 = k then (k, v) else p)) k =
      (getField r k).map (fun _ => v) := by
  induction r with
  | nil => simp [getField]
  | cons p ps ih =>
    by_cases h : p.1 = k
    · simp [getField, h]
    · simp [getField, h, ih]

theorem getField_mapSet_ne (r : Record) (k k' : String) (v : Value) (hk : k' ≠ k) :
    getField (r.map (fun p => if p.1 = k then (k, v) else p)) k' =
      getField r k' := by
  induction r with
  | nil => simp [getField]
  | cons p ps ih =>
    by_cases h : p.1 = k
    · simp [getField, h, Ne.symm hk, ih]
    · simp [getField, h, ih]

/-- A record has an entry with key `k` iff `getField` finds one. -/
theorem any_key_eq_true_iff (r : Record) (k : String) :
    (r.any (fun p => decide (p.1 = k)) = true) ↔ (getField r k).isSome := by
  induction r with
  | nil => simp [getField]
  | cons p ps ih =>
    by_cases h : p.1 = k <;> simp [getField, h, ih]

theorem getField_dictSet_self (r : Record) (k : String) (v : Value) :
    getField (dictSet r k v) k = some v := by
  unfold dictSet
  by_cases h : r.any (fun p => decide (p.1 = k)) = true
  · rw [if_pos h, getField_mapSet]
    rcases Option.isSome_iff_exists.mp ((any_key_eq_true_iff r k).mp h) with ⟨w, hw⟩
    simp [hw]
  · rw [if_neg h, getField_append]
    have : ¬ (getField r k).isSome := fun hs => h ((any_key_eq_true_iff r k).mpr hs)
    rcases Option.not_isSome_iff_eq_none.mp this with hnone
    simp [hnone, getField, Option.orElse]

theorem getField_dictSet_ne (r : Record) (k k' : String) (v : Value) (hk : k' ≠ k) :
    getField (dictSet r k v) k' = getField r k' := by
  unfold dictSet
  by_cases h : r.any (fun p => decide (p.1 = k)) = true
  · rw [if_pos h, getField_mapSet_ne r k k' v hk]
  · rw [if_neg h, getField_append]
    cases hg : getField r k' with
    | some w => simp [Option.orElse]
    | none => simp [getField, Ne.symm hk, Option.orElse]

/-- A key that occurs nowhere in a record is not found. -/
theorem getField_eq_none_of_not_mem_keys (r : Record) (k : String)
    (h : k ∉ r.map Prod.fst) : getField r k = none := by
  induction r with
  | nil => rfl
  | cons q qs ih =>
    have hq : q.1 ≠ k := fun he => h (by simp [he])
    have h' : k ∉ qs.map Prod.fst := fun hm => h (by simp [hm])
    simp [getField, hq, ih h']

/-- Lookup through `dict.update` when the right-hand record has unique
keys: the updating record's bindings win, the original record's
bindings survive everywhere else. -/
theorem getField_dictUpdate (s : Record) (hu : uniqKeys s) :
    ∀ (r : Record) (k : String),
      getField (dictUpdate r s) k = (getField s k).orElse (fun _ => getField r k) := by
  induction s with
  | nil => intro r k; simp [dictUpdate, getField, Option.orElse]
  | cons p ps ih =>
    intro r k
    have hcons : (p.1 :: ps.map Prod.fst).Nodup := hu
    have hnotin : p.1 ∉ ps.map Prod.fst := (List.nodup_cons.mp hcons).1
    have hu' : uniqKeys ps := (List.nodup_cons.mp hcons).2
    show getField (dictUpdate (dictSet r p.1 p.2) ps) k = _
    rw [ih hu' (dictSet r p.1 p.2) k]
    by_cases h : p.1 = k
    · subst h
      have hps : getField ps p.1 = none :=
        getField_eq_none_of_not_mem_keys ps p.1 hnotin
      simp [getField, hps, getField_dictSet_self, Option.orElse]
    · have hs : getField (p :: ps) k = getField ps k := by
        simp [getField, h]
      rw [hs, getField_dictSet_ne r p.1 k p.2 (fun he => h he.symm)]

end RecordLemmas

section ValidatorLemmas

theorem requiredTruthy_missingFields (r : Record) (h : requiredTruthy r = true) :
    missingFields r = [] := by
  unfold missingFields
  rw [List.filter_eq_nil_iff]
  intro f hf
  unfold requiredTruthy at h
  rw [List.all_eq_true] at h
  have hft := h f hf
  cases hg : getField r f with
  | none => rw [hg] at hft; simp at hft
  | some v =>
    rw [hg] at hft
    have hv : truthy v = true := hft
    simp [hv]

theorem validate_ok_true_email (r : Record) (h : validate r = Except.ok true) :
    ∃ e : String, getField r "email" = some (Value.str e) ∧ e ≠ "" := by
  unfold validate at h
  by_cases hm : missingFields r ≠ []
  · rw [if_pos hm] at h
    simp at h
  · rw [if_neg hm] at h
    push_neg at hm
    have hmem : "email" ∈ REQUIRED_FIELDS := by simp [REQUIRED_FIELDS]
    have hpred :
        ¬ ((match getField r "email" with
            | none => true
            | some v => !truthy v) = true) := by
      intro hp
      have : "email" ∈ missingFields r := by
        unfold missingFields
        exact List.mem_filter.mpr ⟨hmem, hp⟩
      rw [hm] at this
      simp at this
    cases hg : getField r "email" with
    | none => rw [hg] at hpred; simp at hpred
    | some v =>
      rw [hg] at h hpred
      cases v with
      | str s =>
        refine ⟨s, rfl, ?_⟩
        intro hs
        subst hs
        exact hpred (by decide)
      | num q => simp at h
      | bool b => simp at h
      | null => simp at h

theorem validate_ok_true_required (r : Record) (h : validate r = Except.ok true)
    (f : String) (hf : f ∈ REQUIRED_FIELDS) :
    ∃ v, getField r f = some v ∧ truthy v = true := by
  unfold validate at h
  by_cases hm : missingFields r ≠ []
  · rw [if_pos hm] at h; simp at h
  · push_neg at hm
    have hpred :
        ¬ ((match getField r f with
            | none => true
            | some v => !truthy v) = true) := by
      intro hp
      have : f ∈ missingFields r := by
        unfold missingFields
        exact List.mem_filter.mpr ⟨hf, hp⟩
      rw [hm] at this
      simp at this
    cases hg : getField r f with
    | none => rw [hg] at hpred; simp at hpred
    | some v =>
      rw [hg] at hpred
      refine ⟨v, rfl, ?_⟩
      by_contra hv
      exact hpred (by simp [Bool.not_eq_true] at hv; simp [hv])

end ValidatorLemmas

section PipelineStepLemmas

theorem processStep_invalid (enc : String → String) (st : PState) (r : Record)
    (h : validate r = Except.ok false) : processStep enc st r = Except.ok st := by
  simp [processStep, h]

theorem processList_append (enc : String → String) (st : PState) (L₁ L₂ : List Record) :
    processList enc st (L₁ ++ L₂) =
      match processList enc st L₁ with
      | .error e => .error e
      | .ok st' => processList enc st' L₂ := by
  induction L₁ generalizing st with
  | nil => simp [processList]
  | cons r rs ih =>
    simp only [List.cons_append, processList]
    cases processStep enc st r with
    | error e => rfl
    | ok st' => exact ih st'

end PipelineStepLemmas

/-- C4: a record with a required field absent or falsy is rejected by
`validate_student_record` (it returns `False` before the email check
can run), and `process_student_data` skips it entirely: processing a
list with the record gives the same result as processing the list
without it. -/
theorem claim_C4 (r : Record) (f : String) (hf : f ∈ REQUIRED_FIELDS)
    (hmiss : getField r f = none ∨ ∃ v, getField r f = some v ∧ truthy v = false) :
    validate r = Except.ok false ∧
      ∀ (enc : String → String) (st : PState) (L₁ L₂ : List Record),
        processList enc st (L₁ ++ r :: L₂) = processList enc st (L₁ ++ L₂) := by
  have hmem : f ∈ missingFields r := by
    unfold missingFields
    refine List.mem_filter.mpr ⟨hf, ?_⟩
    rcases hmiss with hnone | ⟨v, hv, hfalse⟩
    · simp [hnone]
    · simp [hv, hfalse]
  have hne : missingFields r ≠ [] := by
    intro h0
    rw [h0] at hmem
    simp at hmem
  have hval : validate r = Except.ok false := by simp [validate, hne]
  refine ⟨hval, ?_⟩
  intro enc st L₁ L₂
  rw [processList_append, processList_append]
  cases processList enc st L₁ with
  | error e => rfl
  | ok st' =>
    show processList enc st' (r :: L₂) = processList enc st' L₂
    simp [processList, processStep_invalid enc st' r hval]

/-- C4 witness: the record `{"first_name": "Ann"}` is missing `"id"`,
is rejected, and processing `[it]` from the empty state equals
processing `[]`. -/
theorem claim_C4_witness :
    validate [("first_name", Value.str "Ann")] = Except.ok false ∧
      processList (fun s => s) ⟨[], [], []⟩ [[("first_name", Value.str "Ann")]] =
        processList (fun s => s) ⟨[], [], []⟩ [] := by
  have h := claim_C4 [("first_name", Value.str "Ann")] "id"
    (by simp [REQUIRED_FIELDS]) (Or.inl rfl)
  exact ⟨h.1, h.2 (fun s => s) ⟨[], [], []⟩ [] []⟩

/-- C5 (amended): for every record whose four required fields are
present and truthy **and whose email value is a string**,
`validate_student_record` returns `True` even when the email does not
match `EMAIL_REGEX` — a pattern mismatch only logs a warning and never
causes rejection. -/
theorem claim_C5 (r : Record) (e : String)
    (hreq : requiredTruthy r = true)
    (he : getField r "email" = some (Value.str e))
    (hbad : emailMatches e = false) :
    validate r = Except.ok true := by
  have hm : missingFields r = [] := requiredTruthy_missingFields r hreq
  simp [validate, hm, he]

/-- C5 counterexample: the record
`{"id": 1, "first_name": "Ann", "last_name": "Bell", "email": 5}` has
all four required fields present and truthy (and its email certainly
does not match the email pattern — it is not even a string), yet
`validate_student_record` does not return `True`: `re.match` raises
`TypeError` on the non-string email. -/
theorem claim_C5_cex :
    requiredTruthy
        [("id", Value.num 1), ("first_name", Value.str "Ann"),
         ("last_name", Value.str "Bell"), ("email", Value.num 5)] = true ∧
      validate
        [("id", Value.num 1), ("first_name", Value.str "Ann"),
         ("last_name", Value.str "Bell"), ("email", Value.num 5)] =
        Except.error PyErr.typeError := by
  constructor
  · rfl
  · rfl

/-- C5 witness: a record with the syntactically invalid email
`"not.an.email"` (no `@`) still validates to `True`. -/
theorem claim_C5_witness :
    validate
        [("id", Value.num 1), ("first_name", Value.str "Ann"),
         ("last_name", Value.str "Bell"), ("email", Value.str "not.an.email")] =
      Except.ok true :=
  claim_C5 _ "not.an.email" (by rfl) (by rfl) (by rfl)

section AggregatorLemmas

theorem mem_summary_metrics (data : List Record) (subj : String) (m : SubjectMetrics)
    (hm : (subj, m) ∈ calculate_summary_metrics data) :
    m = calcSubjectMetrics data subj ∧ subj ∈ SUBJECTS := by
  obtain ⟨s, hs, he⟩ := List.mem_map.mp hm
  have h1 : s = subj := congrArg Prod.fst he
  have h2 : calcSubjectMetrics data s = m := congrArg Prod.snd he
  subst h1
  exact ⟨h2.symm, hs⟩

theorem sampleVariance_nonneg (l : List ℚ) (h : 1 < l.length) :
    0 ≤ sampleVariance l := by
  unfold sampleVariance
  apply div_nonneg
  · apply List.sum_nonneg
    intro x hx
    obtain ⟨y, _, rfl⟩ := List.mem_map.mp hx
    positivity
  · have h1 : (1 : ℚ) < (l.length : ℚ) := by exact_mod_cast h
    linarith

theorem calcSubjectMetrics_stdev (data : List Record) (subj : String) :
    (calcSubjectMetrics data subj).stdev =
      if 1 < (subjectScores data subj).length then
        Real.sqrt ((sampleVariance (subjectScores data subj) : ℚ) : ℝ)
      else 0 := rfl

end AggregatorLemmas

/-- C3 (amended): for every subject of the fixed subject list, the
`stdev` entry of the summary metrics is the **sample** standard
deviation of the collected values (`statistics.stdev`: square root of
the squared deviations from the mean divided by `n - 1`) when there are
at least 2 values, and `0` when there are fewer than 2 values. -/
theorem claim_C3 (data : List Record) (subj : String) (m : SubjectMetrics)
    (hm : (subj, m) ∈ calculate_summary_metrics data) :
    (1 < (subjectScores data subj).length →
      m.stdev ^ 2 = ((sampleVariance (subjectScores data subj) : ℚ) : ℝ) ∧
        0 ≤ m.stdev) ∧
    ((subjectScores data subj).length ≤ 1 → m.stdev = 0) := by
  obtain ⟨rfl, -⟩ := mem_summary_metrics data subj m hm
  rw [calcSubjectMetrics_stdev]
  constructor
  · intro h
    rw [if_pos h]
    refine ⟨Real.sq_sqrt ?_, Real.sqrt_nonneg _⟩
    exact_mod_cast sampleVariance_nonneg _ h
  · intro h
    rw [if_neg (by omega)]

/-- C3 counterexample: for the two-record data set with math scores 0
and 2 the collected values are `[0, 2]` (two samples), the population
standard deviation is `sqrt((1 + 1)/2) = 1`, but the `stdev` entry is
`statistics.stdev([0, 2]) = sqrt((1 + 1)/(2 - 1)) = sqrt 2 ≠ 1`: the
code computes the sample, not the population, standard deviation. -/
theorem claim_C3_cex :
    ∃ m, ("math_score", m) ∈
        calculate_summary_metrics
          [[("math_score", Value.num 0)], [("math_score", Value.num 2)]] ∧
      2 ≤ (subjectScores
          [[("math_score", Value.num 0)], [("math_score", Value.num 2)]]
          "math_score").length ∧
      m.stdev ≠ populationStdev (subjectScores
          [[("math_score", Value.num 0)], [("math_score", Value.num 2)]]
          "math_score") := by
  have hsc : subjectScores
      [[("math_score", Value.num 0)], [("math_score", Value.num 2)]]
      "math_score" = [0, 2] := by decide
  refine ⟨calcSubjectMetrics
      [[("math_score", Value.num 0)], [("math_score", Value.num 2)]]
      "math_score", ?_, ?_, ?_⟩
  · unfold calculate_summary_metrics
    simp [SUBJECTS]
  · rw [hsc]; norm_num
  · rw [calcSubjectMetrics_stdev, hsc]
    have h1 : sampleVariance [0, 2] = 2 := by
      norm_num [sampleVariance, listMean, List.sum_cons, List.sum_nil]
    have h2 : populationVariance [0, 2] = 1 := by
      norm_num [populationVariance, listMean, List.sum_cons, List.sum_nil]
    rw [if_pos (by norm_num), populationStdev, h1, h2]
    intro h
    rw [show (((1 : ℚ) : ℝ)) = 1 by norm_num, Real.sqrt_one] at h
    have h2' : ((2 : ℚ) : ℝ) = 1 := Real.sqrt_eq_one.mp h
    norm_num at h2'

/-- C3 witness: on the 0/2 fixture, `math_score` has two samples and
its `stdev` entry squares to the sample variance 2. -/
theorem claim_C3_witness :
    1 < (subjectScores
        [[("math_score", Value.num 0)], [("math_score", Value.num 2)]]
        "math_score").length ∧
      (calcSubjectMetrics
          [[("math_score", Value.num 0)], [("math_score", Value.num 2)]]
          "math_score").stdev ^ 2 =
        ((sampleVariance (subjectScores
            [[("math_score", Value.num 0)], [("math_score", Value.num 2)]]
            "math_score") : ℚ) : ℝ) := by
  have hmem : ("math_score", calcSubjectMetrics
      [[("math_score", Value.num 0)], [("math_score", Value.num 2)]]
      "math_score") ∈ calculate_summary_metrics
      [[("math_score", Value.num 0)], [("math_score", Value.num 2)]] := by
    unfold calculate_summary_metrics
    simp [SUBJECTS]
  have hlen : 1 < (subjectScores
      [[("math_score", Value.num 0)], [("math_score", Value.num 2)]]
      "math_score").length := by decide
  exact ⟨hlen, ((claim_C3 _ _ _ hmem).1 hlen).1⟩

/-- C7: when the collected `math_score` values are exactly `[73, 90]`,
the summary entry for that subject reports mean `81.5`, max `90` and
min `73`; and every subject with zero collected values reports mean,
median, stdev, max and min all equal to `0`. -/
theorem claim_C7 :
    (∀ (data : List Record) (m : SubjectMetrics),
        ("math_score", m) ∈ calculate_summary_metrics data →
        subjectScores data "math_score" = [73, 90] →
        m.mean = 163 / 2 ∧ m.max = 90 ∧ m.min = 73) ∧
    (∀ (data : List Record) (subj : String) (m : SubjectMetrics),
        (subj, m) ∈ calculate_summary_metrics data →
        subjectScores data subj = [] →
        m.mean = 0 ∧ m.median = 0 ∧ m.stdev = 0 ∧ m.max = 0 ∧ m.min = 0) := by
  constructor
  · intro data m hm hsc
    obtain ⟨rfl, -⟩ := mem_summary_metrics data "math_score" m hm
    unfold calcSubjectMetrics
    rw [hsc]
    refine ⟨?_, ?_, ?_⟩
    · norm_num [listMean, List.sum_cons, List.sum_nil]
    · norm_num [listMax, max_def]
    · norm_num [listMin, min_def]
  · intro data subj m hm hsc
    obtain ⟨rfl, -⟩ := mem_summary_metrics data subj m hm
    unfold calcSubjectMetrics
    rw [hsc]
    norm_num

/-- C7 witness: on the fixture with math scores 73 and 90,
`math_score` reports mean `163/2 = 81.5`, max 90, min 73, and the
subject `history_score`, with no observations, reports all-zero
metrics. -/
theorem claim_C7_witness :
    ((calcSubjectMetrics
        [[("math_score", Value.num 73)], [("math_score", Value.num 90)]]
        "math_score").mean = 163 / 2 ∧
      (calcSubjectMetrics
        [[("math_score", Value.num 73)], [("math_score", Value.num 90)]]
        "math_score").max = 90 ∧
      (calcSubjectMetrics
        [[("math_score", Value.num 73)], [("math_score", Value.num 90)]]
        "math_score").min = 73) ∧
    ((calcSubjectMetrics
        [[("math_score", Value.num 73)], [("math_score", Value.num 90)]]
        "history_score").stdev = 0) := by
  have hmem1 : ("math_score", calcSubjectMetrics
      [[("math_score", Value.num 73)], [("math_score", Value.num 90)]]
      "math_score") ∈ calculate_summary_metrics
      [[("math_score", Value.num 73)], [("math_score", Value.num 90)]] := by
    unfold calculate_summary_metrics
    simp [SUBJECTS]
  have hmem2 : ("history_score", calcSubjectMetrics
      [[("math_score", Value.num 73)], [("math_score", Value.num 90)]]
      "history_score") ∈ calculate_summary_metrics
      [[("math_score", Value.num 73)], [("math_score", Value.num 90)]] := by
    unfold calculate_summary_metrics
    simp [SUBJECTS]
  refine ⟨claim_C7.1 _ _ hmem1 (by decide), ?_⟩
  exact (claim_C7.2 _ _ _ hmem2 (by decide)).2.2.1

/-- C10: a `"_score"` field holding a Python boolean is treated as
numeric (`bool` is a subclass of `int`): the aggregator collects it as
a sample worth `1` for `True` and `0` for `False`, and the low-score
check classifies either value as a low score (both are below 65). -/
theorem claim_C10 :
    (∀ (st : Record) (rest : List Record) (subj : String) (b : Bool),
        getField st subj = some (Value.bool b) →
        subjectScores (st :: rest) subj =
          (if b then (1 : ℚ) else 0) :: subjectScores rest subj) ∧
    (∀ (r : Record) (k : String) (b : Bool),
        (k, Value.bool b) ∈ r → strEndsWith k "_score" = true →
        (k, Value.bool b) ∈ lowScoreSubjects r) := by
  constructor
  · intro st rest subj b hget
    unfold subjectScores
    rw [List.filterMap_cons]
    simp [hget, Value.isNumeric, Value.toRat]
  · intro r k b hmem hend
    unfold lowScoreSubjects
    refine List.mem_filter.mpr ⟨hmem, ?_⟩
    cases b <;> simp [hend, Value.isNumeric, Value.toRat]

/-- C10 witness: a record with `physics_score = True` contributes the
sample `1` to the aggregator and its boolean score is flagged as low. -/
theorem claim_C10_witness :
    subjectScores [[("physics_score", Value.bool true)]] "physics_score" = [1] ∧
      ("physics_score", Value.bool true) ∈
        lowScoreSubjects [("physics_score", Value.bool true)] := by
  constructor
  · rw [claim_C10.1 [("physics_score", Value.bool true)] [] "physics_score" true rfl]
    rfl
  · exact claim_C10.2 [("physics_score", Value.bool true)] "physics_score" true
      (by simp) (by decide)

section CryptoLemmas

theorem cfbEncrypt_nil (E : List ℕ → List ℕ) (prev : List ℕ) :
    cfbEncrypt E prev [] = [] := by
  rw [cfbEncrypt]

theorem cfbEncrypt_cons (E : List ℕ → List ℕ) (prev : List ℕ) (p : ℕ) (ps : List ℕ) :
    cfbEncrypt E prev (p :: ps) =
      List.zipWith (· ^^^ ·) ((p :: ps).take 16) (E prev) ++
        cfbEncrypt E (List.zipWith (· ^^^ ·) ((p :: ps).take 16) (E prev))
          ((p :: ps).drop 16) := by
  rw [cfbEncrypt]

theorem cfbDecrypt_nil (E : List ℕ → List ℕ) (prev : List ℕ) :
    cfbDecrypt E prev [] = [] := by
  rw [cfbDecrypt]

theorem cfbDecrypt_cons (E : List ℕ → List ℕ) (prev : List ℕ) (c : ℕ) (cs : List ℕ) :
    cfbDecrypt E prev (c :: cs) =
      List.zipWith (· ^^^ ·) ((c :: cs).take 16) (E prev) ++
        cfbDecrypt E ((c :: cs).take 16) ((c :: cs).drop 16) := by
  rw [cfbDecrypt]

theorem cfbDecrypt_ne_nil (E : List ℕ → List ℕ) (prev : List ℕ) (ct : List ℕ)
    (h : ct ≠ []) :
    cfbDecrypt E prev ct =
      List.zipWith (· ^^^ ·) (ct.take 16) (E prev) ++
        cfbDecrypt E (ct.take 16) (ct.drop 16) := by
  cases ct with
  | nil => exact absurd rfl h
  | cons c cs => exact cfbDecrypt_cons E prev c cs

theorem zipWith_xor_cancel : ∀ (a k : List ℕ), a.length ≤ k.length →
    List.zipWith (· ^^^ ·) (List.zipWith (· ^^^ ·) a k) k = a
  | [], _, _ => by simp
  | x :: xs, [], h => by simp at h
  | x :: xs, y :: ys, h => by
    simp only [List.zipWith]
    rw [Nat.xor_cancel_right y x, zipWith_xor_cancel xs ys (by simpa using h)]

theorem zipWith_xor_lt : ∀ (a k : List ℕ), (∀ x ∈ a, x < 256) → (∀ x ∈ k, x < 256) →
    ∀ x ∈ List.zipWith (· ^^^ ·) a k, x < 256
  | [], _, _, _ => by simp
  | _ :: _, [], _, _ => by simp
  | x :: xs, y :: ys, ha, hk => by
    intro z hz
    simp only [List.zipWith, List.mem_cons] at hz
    rcases hz with rfl | hz
    · have hx : x < 2 ^ 8 := by simpa using ha x (by simp)
      have hy : y < 2 ^ 8 := by simpa using hk y (by simp)
      simpa using Nat.bitwise_lt hx hy
    · exact zipWith_xor_lt xs ys (fun u hu => ha u (by simp [hu]))
        (fun u hu => hk u (by simp [hu])) z hz

theorem cfbEncrypt_length (E : List ℕ → List ℕ) (hE : ∀ b, (E b).length = 16) :
    ∀ (n : ℕ) (pt prev : List ℕ), pt.length ≤ n →
      (cfbEncrypt E prev pt).length = pt.length := by
  intro n
  induction n with
  | zero =>
    intro pt prev h
    have : pt = [] := List.length_eq_zero.mp (Nat.le_zero.mp h)
    subst this
    rw [cfbEncrypt_nil]
  | succ n ih =>
    intro pt prev h
    cases pt with
    | nil => rw [cfbEncrypt_nil]
    | cons p ps =>
      rw [cfbEncrypt_cons]
      have hrec := ih ((p :: ps).drop 16)
        (List.zipWith (· ^^^ ·) ((p :: ps).take 16) (E prev))
        (by simp at h ⊢; omega)
      simp only [List.length_append, List.length_zipWith, List.length_take,
        List.length_drop, hE, hrec]
      simp only [List.length_cons]
      simp only [List.length_cons] at h
      omega

theorem cfbEncrypt_lt (E : List ℕ → List ℕ) (hE : ∀ b x, x ∈ E b → x < 256) :
    ∀ (n : ℕ) (pt prev : List ℕ), pt.length ≤ n → (∀ x ∈ pt, x < 256) →
      ∀ x ∈ cfbEncrypt E prev pt, x < 256 := by
  intro n
  induction n with
  | zero =>
    intro pt prev h hpt
    have : pt = [] := List.length_eq_zero.mp (Nat.le_zero.mp h)
    subst this
    rw [cfbEncrypt_nil]
    simp
  | succ n ih =>
    intro pt prev h hpt
    cases pt with
    | nil => rw [cfbEncrypt_nil]; simp
    | cons p ps =>
      rw [cfbEncrypt_cons]
      intro x hx
      rcases List.mem_append.mp hx with hx | hx
      · exact zipWith_xor_lt _ _
          (fun u hu => hpt u (List.mem_of_mem_take hu)) (hE prev) x hx
      · exact ih ((p :: ps).drop 16) _ (by simp at h ⊢; omega)
          (fun u hu => hpt u (List.drop_subset _ _ hu)) x hx

theorem cfbDecrypt_cfbEncrypt (E : List ℕ → List ℕ) (hE : ∀ b, (E b).length = 16) :
    ∀ (n : ℕ) (pt prev : List ℕ), pt.length ≤ n →
      cfbDecrypt E prev (cfbEncrypt E prev pt) = pt := by
  intro n
  induction n with
  | zero =>
    intro pt prev h
    have : pt = [] := List.length_eq_zero.mp (Nat.le_zero.mp h)
    subst this
    rw [cfbEncrypt_nil, cfbDecrypt_nil]
  | succ n ih =>
    intro pt prev h
    cases pt with
    | nil => rw [cfbEncrypt_nil, cfbDecrypt_nil]
    | cons p ps =>
      rw [cfbEncrypt_cons]
      set c := List.zipWith (· ^^^ ·) ((p :: ps).take 16) (E prev) with hc
      have hclen : c.length = min (ps.length + 1) 16 := by
        rw [hc]
        simp [List.length_zipWith, hE]
        omega
      have hcancel : List.zipWith (· ^^^ ·) c (E prev) = (p :: ps).take 16 := by
        rw [hc]
        apply zipWith_xor_cancel
        rw [hE]
        simp
      by_cases hlen : ps.length + 1 ≤ 16
      · have hdrop : (p :: ps).drop 16 = [] :=
          List.drop_eq_nil_of_le (by simpa using hlen)
        have htake : (p :: ps).take 16 = p :: ps :=
          List.take_of_length_le (by simpa using hlen)
        rw [hdrop, cfbEncrypt_nil, List.append_nil]
        have hcne : c ≠ [] := by
          intro h0
          rw [h0] at hclen
          simp at hclen
          omega
        rw [cfbDecrypt_ne_nil E prev c hcne]
        have hctake : c.take 16 = c := List.take_of_length_le (by omega)
        have hcdrop : c.drop 16 = [] := List.drop_eq_nil_of_le (by omega)
        rw [hctake, hcdrop, cfbDecrypt_nil, List.append_nil, hcancel, htake]
      · have hc16 : c.length = 16 := by omega
        set rest := cfbEncrypt E c ((p :: ps).drop 16) with hrest
        have hne : c ++ rest ≠ [] := by
          intro h0
          have := congrArg List.length h0
          simp [hc16] at this
        rw [cfbDecrypt_ne_nil E prev (c ++ rest) hne]
        have htake : (c ++ rest).take 16 = c := List.take_left' hc16
        have hdrop : (c ++ rest).drop 16 = rest := List.drop_left' hc16
        rw [htake, hdrop, hcancel, hrest]
        have hrec : cfbDecrypt E c (cfbEncrypt E c ((p :: ps).drop 16)) =
            (p :: ps).drop 16 := by
          apply ih
          simp only [List.length_drop, List.length_cons]
          simp only [List.length_cons] at h
          omega
        rw [hrec, List.take_append_drop]

end CryptoLemmas

section HexLemmas

theorem hexDigitVal_hexDigitChar (n : ℕ) (h : n < 16) :
    hexDigitVal (hexDigitChar n) = some n := by
  interval_cases n <;> rfl

theorem bytesToHex_length : ∀ l : List ℕ, (bytesToHex l).length = 2 * l.length
  | [] => rfl
  | b :: bs => by
    simp only [bytesToHex, byteToHex, List.length_append, List.length_cons,
      List.length_nil, bytesToHex_length bs, List.length_cons]
    omega

theorem hexToBytes_bytesToHex : ∀ l : List ℕ, (∀ b ∈ l, b < 256) →
    hexToBytes (bytesToHex l) = some l
  | [], _ => rfl
  | b :: bs, h => by
    have hb : b < 256 := h b (by simp)
    have hdiv : b / 16 < 16 := by omega
    have hmod : b % 16 < 16 := Nat.mod_lt _ (by norm_num)
    show hexToBytes (hexDigitChar (b / 16) :: hexDigitChar (b % 16) :: bytesToHex bs) = _
    rw [hexToBytes, hexDigitVal_hexDigitChar _ hdiv, hexDigitVal_hexDigitChar _ hmod,
      hexToBytes_bytesToHex bs (fun u hu => h u (by simp [hu]))]
    simp only [Option.some.injEq, List.cons.injEq]
    exact ⟨Nat.div_add_mod b 16, trivial⟩

end HexLemmas

/-- C2: for every non-empty plaintext (its UTF-8 byte sequence),
`encrypt_field` returns the hex of the 16-byte IV concatenated with the
hex of the CFB ciphertext, and `decrypt_field`'s decryption core —
splitting the stored string at the 32-hex-character IV prefix and
decrypting with the same keyed cipher — recovers the plaintext exactly;
two encryptions of the same plaintext under distinct IVs produce
different stored strings.  `E` is the AES block encryption under the
processor's 32-byte key (16-byte blocks of bytes). -/
theorem claim_C2 (E : List ℕ → List ℕ)
    (hE16 : ∀ b, (E b).length = 16) (hE256 : ∀ b x, x ∈ E b → x < 256) :
    (∀ iv pt : List ℕ, iv.length = 16 → (∀ x ∈ iv, x < 256) →
        pt ≠ [] → (∀ x ∈ pt, x < 256) →
        encrypt_field E iv pt =
          some (bytesToHex iv ++ bytesToHex (cfbEncrypt E iv pt)) ∧
        decrypt_stored E (bytesToHex iv ++ bytesToHex (cfbEncrypt E iv pt)) =
          some pt) ∧
    (∀ iv₁ iv₂ pt : List ℕ, iv₁.length = 16 → iv₂.length = 16 →
        (∀ x ∈ iv₁, x < 256) → (∀ x ∈ iv₂, x < 256) → pt ≠ [] → iv₁ ≠ iv₂ →
        encrypt_field E iv₁ pt ≠ encrypt_field E iv₂ pt) := by
  have hivhex : ∀ iv : List ℕ, iv.length = 16 → (bytesToHex iv).length = 32 := by
    intro iv h
    rw [bytesToHex_length, h]
  constructor
  · intro iv pt hivlen hivb hpt hptb
    have henc : encrypt_field E iv pt =
        some (bytesToHex iv ++ bytesToHex (cfbEncrypt E iv pt)) := by
      unfold encrypt_field
      rw [if_neg (by simp [hpt])]
    refine ⟨henc, ?_⟩
    unfold decrypt_stored
    rw [List.take_left' (hivhex iv hivlen), List.drop_left' (hivhex iv hivlen),
      hexToBytes_bytesToHex iv hivb,
      hexToBytes_bytesToHex _ (cfbEncrypt_lt E hE256 pt.length pt iv le_rfl hptb)]
    show some (cfbDecrypt E iv (cfbEncrypt E iv pt)) = some pt
    rw [cfbDecrypt_cfbEncrypt E hE16 pt.length pt iv le_rfl]
  · intro iv₁ iv₂ pt h1 h2 hb1 hb2 hpt hne heq
    unfold encrypt_field at heq
    rw [if_neg (by simp [hpt]), if_neg (by simp [hpt])] at heq
    have heq' := Option.some.inj heq
    have htk := congrArg (List.take 32) heq'
    rw [List.take_left' (hivhex iv₁ h1), List.take_left' (hivhex iv₂ h2)] at htk
    have hbytes := congrArg hexToBytes htk
    rw [hexToBytes_bytesToHex iv₁ hb1, hexToBytes_bytesToHex iv₂ hb2] at hbytes
    exact hne (Option.some.inj hbytes)

/-- C2 witness: with the constant test block cipher, encrypting the
two-byte plaintext `[104, 105]` under the all-zero IV decrypts back
exactly, and encrypting under a different IV gives a different stored
string. -/
theorem claim_C2_witness :
    decrypt_stored (fun _ => List.replicate 16 0)
        (bytesToHex (List.replicate 16 0) ++
          bytesToHex (cfbEncrypt (fun _ => List.replicate 16 0)
            (List.replicate 16 0) [104, 105])) = some [104, 105] ∧
      encrypt_field (fun _ => List.replicate 16 0) (List.replicate 16 0)
          [104, 105] ≠
        encrypt_field (fun _ => List.replicate 16 0) (1 :: List.replicate 15 0)
          [104, 105] := by
  have hE16 : ∀ b : List ℕ,
      ((fun _ : List ℕ => List.replicate 16 (0 : ℕ)) b).length = 16 := by
    intro b
    simp
  have hE256 : ∀ (b : List ℕ) (x : ℕ),
      x ∈ (fun _ : List ℕ => List.replicate 16 (0 : ℕ)) b → x < 256 := by
    intro b x hx
    have := List.eq_of_mem_replicate hx
    omega
  have hz : ∀ x ∈ List.replicate 16 (0 : ℕ), x < 256 := by
    intro x hx
    have := List.eq_of_mem_replicate hx
    omega
  constructor
  · exact ((claim_C2 _ hE16 hE256).1 (List.replicate 16 0) [104, 105]
      (by simp) hz (by simp) (by decide)).2
  · exact (claim_C2 _ hE16 hE256).2 (List.replicate 16 0)
      (1 :: List.replicate 15 0) [104, 105] (by simp) (by simp) hz
      (by decide) (by simp) (by decide)

section DictLemmas

theorem map_eq_self_of {α : Type} (l : List α) (f : α → α)
    (h : ∀ x ∈ l, f x = x) : l.map f = l := by
  induction l with
  | nil => rfl
  | cons x xs ih =>
    simp only [List.map_cons, h x (by simp), ih (fun u hu => h u (by simp [hu]))]

theorem dictFindD_append (d₁ d₂ : List (Ident × Record)) (i : Ident) :
    dictFindD (d₁ ++ d₂) i = (dictFindD d₁ i).orElse (fun _ => dictFindD d₂ i) := by
  induction d₁ with
  | nil => simp [dictFindD, Option.orElse]
  | cons p ps ih =>
    by_cases h : p.1 = i <;> simp [dictFindD, h, ih, Option.orElse]

theorem dictFindD_anyKey (d : List (Ident × Record)) (i : Ident) :
    (d.any (fun p => decide (p.1 = i)) = true) ↔ (dictFindD d i).isSome := by
  induction d with
  | nil => simp [dictFindD]
  | cons p ps ih =>
    by_cases h : p.1 = i <;> simp [dictFindD, h, ih]

theorem dictFindD_mapSet (d : List (Ident × Record)) (i : Ident) (r : Record) :
    dictFindD (d.map (fun p => if p.1 = i then (i, r) else p)) i =
      (dictFindD d i).map (fun _ => r) := by
  induction d with
  | nil => simp [dictFindD]
  | cons p ps ih =>
    by_cases h : p.1 = i
    · simp [dictFindD, h]
    · simp [dictFindD, h, ih]

theorem dictFindD_mapSet_ne (d : List (Ident × Record)) (i j : Ident) (r : Record)
    (hij : j ≠ i) :
    dictFindD (d.map (fun p => if p.1 = i then (i, r) else p)) j = dictFindD d j := by
  induction d with
  | nil => simp [dictFindD]
  | cons p ps ih =>
    by_cases h : p.1 = i
    · simp [dictFindD, h, Ne.symm hij, ih]
    · simp [dictFindD, h, ih]

theorem dictFindD_dictSetD_self (d : List (Ident × Record)) (i : Ident) (r : Record) :
    dictFindD (dictSetD d i r) i = some r := by
  unfold dictSetD
  by_cases h : d.any (fun p => decide (p.1 = i)) = true
  · rw [if_pos h, dictFindD_mapSet]
    rcases Option.isSome_iff_exists.mp ((dictFindD_anyKey d i).mp h) with ⟨w, hw⟩
    simp [hw]
  · rw [if_neg h, dictFindD_append]
    have hnone : dictFindD d i = none := by
      by_contra hns
      exact h ((dictFindD_anyKey d i).mpr (Option.ne_none_iff_isSome.mp hns))
    simp [hnone, dictFindD, Option.orElse]

theorem dictFindD_dictSetD_ne (d : List (Ident × Record)) (i j : Ident) (r : Record)
    (hij : j ≠ i) : dictFindD (dictSetD d i r) j = dictFindD d j := by
  unfold dictSetD
  by_cases h : d.any (fun p => decide (p.1 = i)) = true
  · rw [if_pos h, dictFindD_mapSet_ne d i j r hij]
  · rw [if_neg h, dictFindD_append]
    cases hg : dictFindD d j with
    | some w => simp [Option.orElse]
    | none => simp [dictFindD, Ne.symm hij, Option.orElse]

theorem dictSetD_not_found (d : List (Ident × Record)) (i : Ident) (r : Record)
    (h : dictFindD d i = none) : dictSetD d i r = d ++ [(i, r)] := by
  unfold dictSetD
  rw [if_neg]
  intro ha
  have := (dictFindD_anyKey d i).mp ha
  rw [h] at this
  simp at this

theorem dictSetD_keys (d : List (Ident × Record)) (i : Ident) (r : Record) :
    ∀ p ∈ dictSetD d i r, p.1 = i ∨ p.1 ∈ d.map Prod.fst := by
  intro p hp
  unfold dictSetD at hp
  by_cases h : d.any (fun q => decide (q.1 = i)) = true
  · rw [if_pos h] at hp
    obtain ⟨q, hq, hpq⟩ := List.mem_map.mp hp
    by_cases hqi : q.1 = i
    · left
      rw [← hpq]
      simp [hqi]
    · right
      rw [← hpq]
      simp only [hqi, if_false]
      exact List.mem_map.mpr ⟨q, hq, rfl⟩
  · rw [if_neg h] at hp
    rcases List.mem_append.mp hp with hp | hp
    · right
      exact List.mem_map.mpr ⟨p, hp, rfl⟩
    · left
      simp at hp
      simp [hp]

theorem dictFindD_shape (D₁ D₂ : List (Ident × Record)) (K : Ident) (M : Record)
    (h₁ : ∀ p ∈ D₁, p.1 ≠ K) :
    dictFindD (D₁ ++ (K, M) :: D₂) K = some M := by
  rw [dictFindD_append]
  have hnone : dictFindD D₁ K = none := by
    induction D₁ with
    | nil => rfl
    | cons q qs ih =>
      simp only [dictFindD, h₁ q (by simp), if_false]
      exact ih (fun u hu => h₁ u (by simp [hu]))
  simp [hnone, dictFindD, Option.orElse]

theorem mem_keys_of_dictFindD (d : List (Ident × Record)) (i : Ident)
    (h : (dictFindD d i).isSome) : i ∈ d.map Prod.fst := by
  induction d with
  | nil => simp [dictFindD] at h
  | cons p ps ih =>
    by_cases hp : p.1 = i
    · simp [hp.symm]
    · rw [dictFindD, if_neg hp] at h
      simp [ih h]

end DictLemmas

section StepLemmas

theorem truthy_str (e : String) (h : e ≠ "") : truthy (Value.str e) = true := by
  have hb : e.isEmpty = false := by
    cases hb : e.isEmpty
    · rfl
    · exact absurd ((String.isEmpty_iff e).mp hb) h
  simp [truthy, hb]

theorem processStep_fresh (enc : String → String) (st : PState) (s : Record)
    (e : String) (hv : validate s = Except.ok true) (hfresh : identOf s ∉ st.seen)
    (he : getField s "email" = some (Value.str e)) (hne : e ≠ "") :
    processStep enc st s = Except.ok
      { seen := identOf s :: st.seen
        queue := check_for_low_scores st.queue (dictSet s "email" (Value.str (enc e)))
        valid := dictSetD st.valid (identOf s) (dictSet s "email" (Value.str (enc e))) } := by
  simp only [processStep, hv, if_neg hfresh, he, truthy_str e hne, if_true,
    encryptValue]

theorem processStep_dup (enc : String → String) (st : PState) (s : Record)
    (r : Record) (hv : validate s = Except.ok true) (hseen : identOf s ∈ st.seen)
    (hfind : dictFindD st.valid (identOf s) = some r) :
    processStep enc st s = Except.ok
      { st with valid := dictSetD st.valid (identOf s) (dictUpdate r s) } := by
  simp only [processStep, hv, if_pos hseen, hfind]

theorem processStep_err (enc : String → String) (st : PState) (s : Record)
    (e : PyErr) (hv : validate s = Except.error e) :
    processStep enc st s = Except.error e := by
  simp only [processStep, hv]

end StepLemmas

section InvLemmas

theorem dictFindD_isSome_of_mem_keys (d : List (Ident × Record)) (i : Ident)
    (h : i ∈ d.map Prod.fst) : (dictFindD d i).isSome := by
  induction d with
  | nil => simp at h
  | cons p ps ih =>
    by_cases hp : p.1 = i
    · simp [dictFindD, hp]
    · rw [dictFindD, if_neg hp]
      apply ih
      rcases List.mem_map.mp h with ⟨q, hq, hq1⟩
      rcases List.mem_cons.mp hq with rfl | hq2
      · exact absurd hq1 hp
      · exact List.mem_map.mpr ⟨q, hq2, hq1⟩

theorem dictFindD_none_keys (d : List (Ident × Record)) (i : Ident)
    (h : dictFindD d i = none) : ∀ p ∈ d, p.1 ≠ i := by
  intro p hp hpi
  have : i ∈ d.map Prod.fst := List.mem_map.mpr ⟨p, hp, hpi⟩
  have := dictFindD_isSome_of_mem_keys d i this
  rw [h] at this
  simp at this

theorem PInv_nil (q0 : List Payload) (seenEmpty : List Ident)
    (h : seenEmpty = []) : PInv ⟨seenEmpty, q0, []⟩ := by
  subst h
  exact ⟨by simp, by simp⟩

theorem PInv_dup (st : PState) (h : PInv st) (i : Ident) (r : Record)
    (hi : i ∈ st.seen) : PInv { st with valid := dictSetD st.valid i r } := by
  constructor
  · intro j hj
    by_cases hij : j = i
    · subst hij
      rw [dictFindD_dictSetD_self]
      simp
    · rw [dictFindD_dictSetD_ne _ _ _ _ hij]
      exact h.1 j hj
  · intro p hp
    rcases dictSetD_keys _ _ _ p hp with h1 | h1
    · rw [h1]
      exact hi
    · rcases List.mem_map.mp h1 with ⟨q, hq, hq1⟩
      rw [← hq1]
      exact h.2 q hq

theorem PInv_fresh (st : PState) (h : PInv st) (i : Ident) (s2 : Record)
    (q' : List Payload) : PInv ⟨i :: st.seen, q', dictSetD st.valid i s2⟩ := by
  constructor
  · intro j hj
    by_cases hij : j = i
    · subst hij
      rw [dictFindD_dictSetD_self]
      simp
    · rw [dictFindD_dictSetD_ne _ _ _ _ hij]
      rcases List.mem_cons.mp hj with rfl | hj2
      · exact absurd rfl hij
      · exact h.1 j hj2
  · intro p hp
    rcases dictSetD_keys _ _ _ p hp with h1 | h1
    · rw [h1]
      simp
    · rcases List.mem_map.mp h1 with ⟨q, hq, hq1⟩
      rw [← hq1]
      exact List.mem_cons.mpr (Or.inr (h.2 q hq))

end InvLemmas

section ShapeLemmas

theorem dictSetD_shape_ne (D₁ D₂ : List (Ident × Record)) (K i : Ident)
    (M r : Record) (hiK : i ≠ K)
    (h₁ : ∀ p ∈ D₁, p.1 ≠ K) (h₂ : ∀ p ∈ D₂, p.1 ≠ K) :
    ∃ D₁' D₂', dictSetD (D₁ ++ (K, M) :: D₂) i r = D₁' ++ (K, M) :: D₂' ∧
      D₁'.length = D₁.length ∧
      (∀ p ∈ D₁', p.1 ≠ K) ∧ (∀ p ∈ D₂', p.1 ≠ K) := by
  unfold dictSetD
  by_cases h : (D₁ ++ (K, M) :: D₂).any (fun p => decide (p.1 = i)) = true
  · rw [if_pos h]
    refine ⟨D₁.map (fun p => if p.1 = i then (i, r) else p),
      D₂.map (fun p => if p.1 = i then (i, r) else p), ?_, by simp, ?_, ?_⟩
    · simp only [List.map_append, List.map_cons]
      have : ((K, M) : Ident × Record).1 ≠ i := fun hKi => hiK hKi.symm
      simp [this]
    · intro p hp
      rcases List.mem_map.mp hp with ⟨q, hq, hq1⟩
      rw [← hq1]
      by_cases hqi : q.1 = i
      · simp [hqi, hiK]
      · simp only [hqi, if_false]
        exact h₁ q hq
    · intro p hp
      rcases List.mem_map.mp hp with ⟨q, hq, hq1⟩
      rw [← hq1]
      by_cases hqi : q.1 = i
      · simp [hqi, hiK]
      · simp only [hqi, if_false]
        exact h₂ q hq
  · rw [if_neg h]
    refine ⟨D₁, D₂ ++ [(i, r)], by simp, rfl, h₁, ?_⟩
    intro p hp
    rcases List.mem_append.mp hp with hp | hp
    · exact h₂ p hp
    · simp at hp
      simp [hp, hiK]

theorem dictSetD_shape_self (D₁ D₂ : List (Ident × Record)) (K : Ident)
    (M r : Record) (h₁ : ∀ p ∈ D₁, p.1 ≠ K) (h₂ : ∀ p ∈ D₂, p.1 ≠ K) :
    dictSetD (D₁ ++ (K, M) :: D₂) K r = D₁ ++ (K, r) :: D₂ := by
  unfold dictSetD
  rw [if_pos]
  · simp only [List.map_append, List.map_cons]
    rw [map_eq_self_of D₁ _ (fun p hp => by simp [h₁ p hp]),
      map_eq_self_of D₂ _ (fun p hp => by simp [h₂ p hp])]
    simp
  · rw [List.any_eq_true]
    exact ⟨(K, M), by simp, by simp⟩

end ShapeLemmas

section PhaseLemmas

theorem processList_avoid (enc : String → String) (K : Ident) :
    ∀ (L : List Record) (st : PState), (∀ r ∈ L, okAvoiding K r) → PInv st →
      K ∉ st.seen → dictFindD st.valid K = none →
      ∃ st', processList enc st L = Except.ok st' ∧ PInv st' ∧
        K ∉ st'.seen ∧ dictFindD st'.valid K = none := by
  intro L
  induction L with
  | nil =>
    intro st hok hinv hseen hfind
    exact ⟨st, rfl, hinv, hseen, hfind⟩
  | cons r rs ih =>
    intro st hok hinv hseen hfind
    obtain ⟨b, hvb, hbK⟩ := hok r (by simp)
    cases b with
    | false =>
      have hstep := processStep_invalid enc st r hvb
      obtain ⟨st', h1, h2, h3, h4⟩ := ih st (fun u hu => hok u (by simp [hu]))
        hinv hseen hfind
      exact ⟨st', by rw [processList, hstep]; exact h1, h2, h3, h4⟩
    | true =>
      have hK := hbK rfl
      by_cases hs : identOf r ∈ st.seen
      · have hfound := hinv.1 (identOf r) hs
        obtain ⟨rr, hrr⟩ := Option.isSome_iff_exists.mp hfound
        have hstep := processStep_dup enc st r rr hvb hs hrr
        have hinv' := PInv_dup st hinv (identOf r) (dictUpdate rr r) hs
        have hfind' : dictFindD (dictSetD st.valid (identOf r) (dictUpdate rr r)) K =
            none := by
          rw [dictFindD_dictSetD_ne _ _ _ _ (fun hKr => hK hKr.symm)]
          exact hfind
        obtain ⟨st', h1, h2, h3, h4⟩ := ih
          { st with valid := dictSetD st.valid (identOf r) (dictUpdate rr r) }
          (fun u hu => hok u (by simp [hu])) hinv' hseen hfind'
        exact ⟨st', by rw [processList, hstep]; exact h1, h2, h3, h4⟩
      · obtain ⟨e, he, hene⟩ := validate_ok_true_email r hvb
        have hstep := processStep_fresh enc st r e hvb hs he hene
        have hinv' := PInv_fresh st hinv (identOf r)
          (dictSet r "email" (Value.str (enc e)))
          (check_for_low_scores st.queue (dictSet r "email" (Value.str (enc e))))
        have hseen' : K ∉ identOf r :: st.seen := by
          intro hmem
          rcases List.mem_cons.mp hmem with h0 | h0
          · exact hK h0.symm
          · exact hseen h0
        have hfind' : dictFindD
            (dictSetD st.valid (identOf r) (dictSet r "email" (Value.str (enc e)))) K =
            none := by
          rw [dictFindD_dictSetD_ne _ _ _ _ (fun hKr => hK hKr.symm)]
          exact hfind
        obtain ⟨st', h1, h2, h3, h4⟩ := ih
          ⟨identOf r :: st.seen,
            check_for_low_scores st.queue (dictSet r "email" (Value.str (enc e))),
            dictSetD st.valid (identOf r) (dictSet r "email" (Value.str (enc e)))⟩
          (fun u hu => hok u (by simp [hu])) hinv' hseen' hfind'
        exact ⟨st', by rw [processList, hstep]; exact h1, h2, h3, h4⟩

theorem processList_preserve (enc : String → String) (K : Ident) (M : Record) :
    ∀ (L : List Record) (st : PState) (D₁ D₂ : List (Ident × Record)),
      (∀ r ∈ L, okAvoiding K r) → PInv st → K ∈ st.seen →
      st.valid = D₁ ++ (K, M) :: D₂ →
      (∀ p ∈ D₁, p.1 ≠ K) → (∀ p ∈ D₂, p.1 ≠ K) →
      ∃ st' D₁' D₂', processList enc st L = Except.ok st' ∧ PInv st' ∧
        K ∈ st'.seen ∧ st'.valid = D₁' ++ (K, M) :: D₂' ∧
        D₁'.length = D₁.length ∧
        (∀ p ∈ D₁', p.1 ≠ K) ∧ (∀ p ∈ D₂', p.1 ≠ K) := by
  intro L
  induction L with
  | nil =>
    intro st D₁ D₂ hok hinv hseen hvalid h₁ h₂
    exact ⟨st, D₁, D₂, rfl, hinv, hseen, hvalid, rfl, h₁, h₂⟩
  | cons r rs ih =>
    intro st D₁ D₂ hok hinv hseen hvalid h₁ h₂
    obtain ⟨b, hvb, hbK⟩ := hok r (by simp)
    cases b with
    | false =>
      have hstep := processStep_invalid enc st r hvb
      obtain ⟨st', D₁', D₂', h1, hrest⟩ := ih st D₁ D₂
        (fun u hu => hok u (by simp [hu])) hinv hseen hvalid h₁ h₂
      exact ⟨st', D₁', D₂', by rw [processList, hstep]; exact h1, hrest⟩
    | true =>
      have hK := hbK rfl
      by_cases hs : identOf r ∈ st.seen
      · have hfound := hinv.1 (identOf r) hs
        obtain ⟨rr, hrr⟩ := Option.isSome_iff_exists.mp hfound
        have hstep := processStep_dup enc st r rr hvb hs hrr
        have hinv' := PInv_dup st hinv (identOf r) (dictUpdate rr r) hs
        obtain ⟨E₁, E₂, hshape, hlen, g₁, g₂⟩ :=
          dictSetD_shape_ne D₁ D₂ K (identOf r) M (dictUpdate rr r) hK h₁ h₂
        obtain ⟨st', D₁', D₂', h1, h2, h3, h4, h5, h6, h7⟩ := ih
          { st with valid := dictSetD st.valid (identOf r) (dictUpdate rr r) }
          E₁ E₂ (fun u hu => hok u (by simp [hu])) hinv' hseen
          (by show dictSetD st.valid (identOf r) (dictUpdate rr r) =
              E₁ ++ (K, M) :: E₂
              rw [hvalid]
              exact hshape) g₁ g₂
        exact ⟨st', D₁', D₂', by rw [processList, hstep]; exact h1, h2, h3, h4,
          by rw [h5, hlen], h6, h7⟩
      · obtain ⟨e, he, hene⟩ := validate_ok_true_email r hvb
        have hstep := processStep_fresh enc st r e hvb hs he hene
        have hinv' := PInv_fresh st hinv (identOf r)
          (dictSet r "email" (Value.str (enc e)))
          (check_for_low_scores st.queue (dictSet r "email" (Value.str (enc e))))
        obtain ⟨E₁, E₂, hshape, hlen, g₁, g₂⟩ :=
          dictSetD_shape_ne D₁ D₂ K (identOf r)
            M (dictSet r "email" (Value.str (enc e))) hK h₁ h₂
        obtain ⟨st', D₁', D₂', h1, h2, h3, h4, h5, h6, h7⟩ := ih
          ⟨identOf r :: st.seen,
            check_for_low_scores st.queue (dictSet r "email" (Value.str (enc e))),
            dictSetD st.valid (identOf r) (dictSet r "email" (Value.str (enc e)))⟩
          E₁ E₂ (fun u hu => hok u (by simp [hu])) hinv'
          (List.mem_cons.mpr (Or.inr hseen))
          (by show dictSetD st.valid (identOf r) (dictSet r "email" (Value.str (enc e))) =
              E₁ ++ (K, M) :: E₂
              rw [hvalid]
              exact hshape) g₁ g₂
        exact ⟨st', D₁', D₂', by rw [processList, hstep]; exact h1, h2, h3, h4,
          by rw [h5, hlen], h6, h7⟩

end PhaseLemmas

section LowScoreLemmas

theorem strEndsWith_email : strEndsWith "email" "_score" = false := by decide

theorem lowScoreSubjects_mapSet_email (s : Record) (v : Value) :
    lowScoreSubjects (s.map (fun p => if p.1 = "email" then ("email", v) else p)) =
      lowScoreSubjects s := by
  induction s with
  | nil => rfl
  | cons p ps ih =>
    obtain ⟨k, w⟩ := p
    unfold lowScoreSubjects at ih ⊢
    by_cases hp : k = "email"
    · subst hp
      simp only [List.map_cons, List.filter_cons, if_pos rfl]
      simp only [strEndsWith_email, Bool.false_and, Bool.false_eq_true, if_false]
      exact ih
    · simp only [List.map_cons, List.filter_cons, if_neg hp]
      rw [ih]

theorem lowScoreSubjects_dictSet_email (s : Record) (v : Value)
    (h : (getField s "email").isSome) :
    lowScoreSubjects (dictSet s "email" v) = lowScoreSubjects s := by
  unfold dictSet
  rw [if_pos ((any_key_eq_true_iff s "email").mpr h)]
  exact lowScoreSubjects_mapSet_email s v

theorem lowScoreSubjects_nonempty_iff (s : Record) :
    (lowScoreSubjects s).isEmpty = false ↔
      ∃ p ∈ s, strEndsWith p.1 "_score" = true ∧
        p.2.isNumeric = true ∧ p.2.toRat < 65 := by
  rw [Bool.eq_false_iff, Ne, List.isEmpty_iff]
  constructor
  · intro h
    obtain ⟨p, hp⟩ := List.exists_mem_of_ne_nil _ h
    have hp' := List.mem_filter.mp hp
    have hc := hp'.2
    simp only [Bool.and_eq_true, decide_eq_true_eq] at hc
    exact ⟨p, hp'.1, hc.1.1, hc.1.2, hc.2⟩
  · rintro ⟨p, hps, h1, h2, h3⟩ h0
    have hmem : p ∈ lowScoreSubjects s := List.mem_filter.mpr ⟨hps, by
      simp only [Bool.and_eq_true, decide_eq_true_eq]
      exact ⟨⟨h1, h2⟩, h3⟩⟩
    rw [h0] at hmem
    simp at hmem

end LowScoreLemmas

/-- C6: a freshly-seen valid record is appended to the pending
low-score batch iff it has at least one `"_score"` field with a numeric
value strictly below 65; the enqueued payload is exactly the record's
id, first and last name, the email **as stored at that point** (the
ciphertext produced by the just-performed encryption) and the map of
exactly the low subject/score pairs.  Nothing but the batch list
changes — no network send happens at enqueue time (`requests.post`
appears only in `post_low_scores`). -/
theorem claim_C6 (enc : String → String) (st : PState) (s : Record) (e : String)
    (hv : validate s = Except.ok true) (hfresh : identOf s ∉ st.seen)
    (he : getField s "email" = some (Value.str e)) :
    ∃ st', processStep enc st s = Except.ok st' ∧
      st'.queue =
        (if (lowScoreSubjects s).isEmpty then st.queue
         else st.queue ++
           [{ id := getField s "id"
              first_name := getField s "first_name"
              last_name := getField s "last_name"
              email := some (Value.str (enc e))
              low_scores := lowScoreSubjects s }]) ∧
      ((lowScoreSubjects s).isEmpty = false ↔
        ∃ p ∈ s, strEndsWith p.1 "_score" = true ∧
          p.2.isNumeric = true ∧ p.2.toRat < 65) := by
  obtain ⟨e', he', hne'⟩ := validate_ok_true_email s hv
  have heq : Value.str e = Value.str e' := by
    rw [he] at he'
    exact Option.some.inj he'
  obtain rfl : e = e' := by injection heq
  have hstep := processStep_fresh enc st s e hv hfresh he hne'
  refine ⟨_, hstep, ?_, lowScoreSubjects_nonempty_iff s⟩
  show check_for_low_scores st.queue (dictSet s "email" (Value.str (enc e))) = _
  unfold check_for_low_scores
  rw [lowScoreSubjects_dictSet_email s _ (by rw [he]; rfl)]
  by_cases hl : (lowScoreSubjects s).isEmpty
  · rw [if_pos hl, if_pos hl]
  · rw [if_neg hl, if_neg hl]
    have hne : ("id" : String) ≠ "email" := by decide
    have hnf : ("first_name" : String) ≠ "email" := by decide
    have hnl : ("last_name" : String) ≠ "email" := by decide
    rw [getField_dictSet_ne s "email" "id" _ hne,
      getField_dictSet_ne s "email" "first_name" _ hnf,
      getField_dictSet_ne s "email" "last_name" _ hnl,
      getField_dictSet_self s "email" _]

/-- C6 witness: on the fresh state, the valid record with
`math_score = 50` is enqueued with exactly its id, names, the encrypted
email and the single low pair. -/
theorem claim_C6_witness :
    ∃ st', processStep (fun x => String.append x x) ⟨[], [], []⟩
        [("id", Value.num 1), ("first_name", Value.str "Ann"),
         ("last_name", Value.str "Bell"), ("email", Value.str "a@b.c"),
         ("math_score", Value.num 50)] = Except.ok st' ∧
      st'.queue =
        (if (lowScoreSubjects
            [("id", Value.num 1), ("first_name", Value.str "Ann"),
             ("last_name", Value.str "Bell"), ("email", Value.str "a@b.c"),
             ("math_score", Value.num 50)]).isEmpty then []
         else [] ++
           [{ id := getField
                [("id", Value.num 1), ("first_name", Value.str "Ann"),
                 ("last_name", Value.str "Bell"), ("email", Value.str "a@b.c"),
                 ("math_score", Value.num 50)] "id"
              first_name := getField
                [("id", Value.num 1), ("first_name", Value.str "Ann"),
                 ("last_name", Value.str "Bell"), ("email", Value.str "a@b.c"),
                 ("math_score", Value.num 50)] "first_name"
              last_name := getField
                [("id", Value.num 1), ("first_name", Value.str "Ann"),
                 ("last_name", Value.str "Bell"), ("email", Value.str "a@b.c"),
                 ("math_score", Value.num 50)] "last_name"
              email := some (Value.str ((fun x => String.append x x) "a@b.c"))
              low_scores := lowScoreSubjects
                [("id", Value.num 1), ("first_name", Value.str "Ann"),
                 ("last_name", Value.str "Bell"), ("email", Value.str "a@b.c"),
                 ("math_score", Value.num 50)] }]) ∧
      ((lowScoreSubjects
          [("id", Value.num 1), ("first_name", Value.str "Ann"),
           ("last_name", Value.str "Bell"), ("email", Value.str "a@b.c"),
           ("math_score", Value.num 50)]).isEmpty = false ↔
        ∃ p ∈ [("id", Value.num 1), ("first_name", Value.str "Ann"),
           ("last_name", Value.str "Bell"), ("email", Value.str "a@b.c"),
           ("math_score", Value.num 50)],
          strEndsWith p.1 "_score" = true ∧
            p.2.isNumeric = true ∧ p.2.toRat < 65) :=
  claim_C6 (fun x => String.append x x) ⟨[], [], []⟩
    [("id", Value.num 1), ("first_name", Value.str "Ann"),
     ("last_name", Value.str "Bell"), ("email", Value.str "a@b.c"),
     ("math_score", Value.num 50)] "a@b.c" (by rfl) (by simp) (by rfl)

/-- C8: merging a valid duplicate overwrites the stored (encrypted)
email with the duplicate's raw plaintext email: the merged record's
email field is exactly the incoming record's unencrypted email
string. -/
theorem claim_C8 (enc : String → String) (st : PState) (s r : Record)
    (hv : validate s = Except.ok true) (hseen : identOf s ∈ st.seen)
    (hfind : dictFindD st.valid (identOf s) = some r) (hu : uniqKeys s) :
    ∃ e : String, getField s "email" = some (Value.str e) ∧ e ≠ "" ∧
      processStep enc st s = Except.ok
        { st with valid := dictSetD st.valid (identOf s) (dictUpdate r s) } ∧
      getField (dictUpdate r s) "email" = some (Value.str e) := by
  obtain ⟨e, he, hne⟩ := validate_ok_true_email s hv
  refine ⟨e, he, hne, processStep_dup enc st s r hv hseen hfind, ?_⟩
  rw [getField_dictUpdate s hu r "email", he]
  rfl

/-- C8 witness: a duplicate of a stored record (whose email field holds
a ciphertext) is merged and the merged record carries the raw plaintext
email `"a@b.c"`. -/
theorem claim_C8_witness :
    ∃ e : String,
      getField [("id", Value.num 1), ("first_name", Value.str "Ann"),
          ("last_name", Value.str "Bell"), ("email", Value.str "a@b.c")]
        "email" = some (Value.str e) ∧ e ≠ "" ∧
      processStep (fun x => String.append x x)
          ⟨[identOf [("id", Value.num 1), ("first_name", Value.str "Ann"),
              ("last_name", Value.str "Bell"), ("email", Value.str "a@b.c")]], [],
            [(identOf [("id", Value.num 1), ("first_name", Value.str "Ann"),
                ("last_name", Value.str "Bell"), ("email", Value.str "a@b.c")],
              [("id", Value.num 1), ("first_name", Value.str "Ann"),
               ("last_name", Value.str "Bell"),
               ("email", Value.str "ciphertexthex")])]⟩
          [("id", Value.num 1), ("first_name", Value.str "Ann"),
           ("last_name", Value.str "Bell"), ("email", Value.str "a@b.c")] =
        Except.ok
          { seen := [identOf [("id", Value.num 1), ("first_name", Value.str "Ann"),
              ("last_name", Value.str "Bell"), ("email", Value.str "a@b.c")]]
            queue := []
            valid := dictSetD
              [(identOf [("id", Value.num 1), ("first_name", Value.str "Ann"),
                  ("last_name", Value.str "Bell"), ("email", Value.str "a@b.c")],
                [("id", Value.num 1), ("first_name", Value.str "Ann"),
                 ("last_name", Value.str "Bell"),
                 ("email", Value.str "ciphertexthex")])]
              (identOf [("id", Value.num 1), ("first_name", Value.str "Ann"),
                ("last_name", Value.str "Bell"), ("email", Value.str "a@b.c")])
              (dictUpdate
                [("id", Value.num 1), ("first_name", Value.str "Ann"),
                 ("last_name", Value.str "Bell"),
                 ("email", Value.str "ciphertexthex")]
                [("id", Value.num 1), ("first_name", Value.str "Ann"),
                 ("last_name", Value.str "Bell"), ("email", Value.str "a@b.c")]) } ∧
      getField (dictUpdate
          [("id", Value.num 1), ("first_name", Value.str "Ann"),
           ("last_name", Value.str "Bell"), ("email", Value.str "ciphertexthex")]
          [("id", Value.num 1), ("first_name", Value.str "Ann"),
           ("last_name", Value.str "Bell"), ("email", Value.str "a@b.c")])
        "email" = some (Value.str e) :=
  claim_C8 (fun x => String.append x x) _ _ _ (by rfl) (by simp) (by rfl)
    (by unfold uniqKeys; decide)

/-- C9: `seen_students` is class-level state while `valid_students` is
call-local, so a second call seeing an already-seen identity takes the
duplicate branch, and `valid_students[identifier]` raises `KeyError` on
the empty call-local dict; through `fetch_and_process_student_data` the
exception is caught and the whole batch degrades to `[]`. -/
theorem claim_C9 (enc : String → String) (seen0 : List Ident) (q0 : List Payload)
    (r : Record) (rest : List Record)
    (hv : validate (cleanRecord r) = Except.ok true)
    (hm : identOf (cleanRecord r) ∈ seen0) :
    process_student_data enc seen0 q0
        (handle_missing_null_malformed_data (r :: rest)) =
        Except.error PyErr.keyError ∧
      fetch_and_process_student_data enc seen0 q0 (r :: rest) = [] := by
  have hstep : processStep enc ⟨seen0, q0, []⟩ (cleanRecord r) =
      Except.error PyErr.keyError := by
    simp only [processStep, hv, if_pos hm]
    rfl
  have hproc : process_student_data enc seen0 q0
      (handle_missing_null_malformed_data (r :: rest)) =
      Except.error PyErr.keyError := by
    unfold process_student_data handle_missing_null_malformed_data
    simp only [List.map_cons, processList, hstep]
  refine ⟨hproc, ?_⟩
  unfold fetch_and_process_student_data
  rw [hproc]

/-- C9 witness: a second call whose first record's identity was seen in
an earlier call loses the entire batch, including the second, fresh
record. -/
theorem claim_C9_witness :
    process_student_data (fun x => String.append x x)
        [identOf (cleanRecord [("id", Value.num 1), ("first_name", Value.str "Ann"),
          ("last_name", Value.str "Bell"), ("email", Value.str "a@b.c")])] []
        (handle_missing_null_malformed_data
          [[("id", Value.num 1), ("first_name", Value.str "Ann"),
            ("last_name", Value.str "Bell"), ("email", Value.str "a@b.c")],
           [("id", Value.num 2), ("first_name", Value.str "Bob"),
            ("last_name", Value.str "Cole"), ("email", Value.str "b@c.d")]]) =
        Except.error PyErr.keyError ∧
      fetch_and_process_student_data (fun x => String.append x x)
        [identOf (cleanRecord [("id", Value.num 1), ("first_name", Value.str "Ann"),
          ("last_name", Value.str "Bell"), ("email", Value.str "a@b.c")])] []
        [[("id", Value.num 1), ("first_name", Value.str "Ann"),
          ("last_name", Value.str "Bell"), ("email", Value.str "a@b.c")],
         [("id", Value.num 2), ("first_name", Value.str "Bob"),
          ("last_name", Value.str "Cole"), ("email", Value.str "b@c.d")]] = [] :=
  claim_C9 (fun x => String.append x x) _ _ _ _ (by rfl) (by simp)

/-- C1: on a fresh processor state, when exactly two valid records of
the input share the identity key `K` (every other record either fails
validation or has a different identity), the final `valid_students`
dictionary holds exactly one record for `K`, located at the position
reached when the key first occurred (right after the entries produced
by the prefix `A`), and the merged record's fields are the earlier
record's fields overwritten field-by-field by the later record's
fields.  (The intermediate encryption of the first record's email is
overwritten back by the duplicate's email, which is the same string, so
the field-by-field description over the two raw records is exact.) -/
theorem claim_C1 (enc : String → String) (q0 : List Payload)
    (A B C : List Record) (r₁ r₂ : Record) (K : Ident)
    (hA : ∀ r ∈ A, okAvoiding K r) (hB : ∀ r ∈ B, okAvoiding K r)
    (hC : ∀ r ∈ C, okAvoiding K r)
    (h1 : validate r₁ = Except.ok true) (h2 : validate r₂ = Except.ok true)
    (hK1 : identOf r₁ = K) (hK2 : identOf r₂ = K)
    (hu2 : uniqKeys r₂) :
    ∃ (stA st' : PState) (e₁ : String) (D₁ D₂ : List (Ident × Record)),
      processList enc ⟨[], q0, []⟩ A = Except.ok stA ∧
      getField r₁ "email" = some (Value.str e₁) ∧
      process_student_data enc [] q0 (A ++ (r₁ :: (B ++ (r₂ :: C)))) =
        Except.ok
          ((D₁ ++ (K, dictUpdate (dictSet r₁ "email" (Value.str (enc e₁))) r₂)
              :: D₂).map Prod.snd, st') ∧
      st'.valid =
        D₁ ++ (K, dictUpdate (dictSet r₁ "email" (Value.str (enc e₁))) r₂) :: D₂ ∧
      D₁.length = stA.valid.length ∧
      (∀ p ∈ D₁, p.1 ≠ K) ∧ (∀ p ∈ D₂, p.1 ≠ K) ∧
      (∀ k : String,
        getField (dictUpdate (dictSet r₁ "email" (Value.str (enc e₁))) r₂) k =
          (getField r₂ k).orElse (fun _ => getField r₁ k)) := by
  obtain ⟨e₁, he₁, hne₁⟩ := validate_ok_true_email r₁ h1
  obtain ⟨e₂, he₂, hne₂⟩ := validate_ok_true_email r₂ h2
  have hinv0 : PInv ⟨[], q0, []⟩ := PInv_nil q0 [] rfl
  obtain ⟨stA, hA1, hAinv, hAseen, hAfind⟩ :=
    processList_avoid enc K A ⟨[], q0, []⟩ hA hinv0 (by simp) rfl
  have hfresh : identOf r₁ ∉ stA.seen := by rw [hK1]; exact hAseen
  have hstep1 := processStep_fresh enc stA r₁ e₁ h1 hfresh he₁ hne₁
  set s2 := dictSet r₁ "email" (Value.str (enc e₁)) with hs2
  have hsetD : dictSetD stA.valid (identOf r₁) s2 = stA.valid ++ [(K, s2)] := by
    rw [hK1]
    exact dictSetD_not_found stA.valid K s2 hAfind
  have h1inv : PInv ⟨identOf r₁ :: stA.seen, check_for_low_scores stA.queue s2,
      dictSetD stA.valid (identOf r₁) s2⟩ :=
    PInv_fresh stA hAinv (identOf r₁) s2 _
  have h1seen : K ∈ identOf r₁ :: stA.seen :=
    List.mem_cons.mpr (Or.inl hK1.symm)
  have h1valid : (⟨identOf r₁ :: stA.seen, check_for_low_scores stA.queue s2,
      dictSetD stA.valid (identOf r₁) s2⟩ : PState).valid =
      stA.valid ++ (K, s2) :: [] := by
    show dictSetD stA.valid (identOf r₁) s2 = _
    rw [hsetD]
  have hnoK : ∀ p ∈ stA.valid, p.1 ≠ K := dictFindD_none_keys stA.valid K hAfind
  obtain ⟨stB, E₁, E₂, hB1, hBinv, hBseen, hBvalid, hBlen, hBk1, hBk2⟩ :=
    processList_preserve enc K s2 B
      ⟨identOf r₁ :: stA.seen, check_for_low_scores stA.queue s2,
        dictSetD stA.valid (identOf r₁) s2⟩
      stA.valid [] hB h1inv h1seen h1valid hnoK (by simp)
  have hseen2 : identOf r₂ ∈ stB.seen := by rw [hK2]; exact hBseen
  have hfind2 : dictFindD stB.valid (identOf r₂) = some s2 := by
    rw [hK2, hBvalid]
    exact dictFindD_shape E₁ E₂ K s2 hBk1
  have hstep2 := processStep_dup enc stB r₂ s2 h2 hseen2 hfind2
  set M := dictUpdate s2 r₂ with hM
  have hsetD2 : dictSetD stB.valid (identOf r₂) M = E₁ ++ (K, M) :: E₂ := by
    rw [hK2, hBvalid]
    exact dictSetD_shape_self E₁ E₂ K s2 M hBk1 hBk2
  have h2inv : PInv { stB with valid := dictSetD stB.valid (identOf r₂) M } :=
    PInv_dup stB hBinv (identOf r₂) M hseen2
  have h2valid : ({ stB with valid := dictSetD stB.valid (identOf r₂) M } : PState).valid =
      E₁ ++ (K, M) :: E₂ := hsetD2
  obtain ⟨st', F₁, F₂, hC1, hCinv, hCseen, hCvalid, hClen, hCk1, hCk2⟩ :=
    processList_preserve enc K M C
      { stB with valid := dictSetD stB.valid (identOf r₂) M }
      E₁ E₂ hC h2inv hBseen h2valid hBk1 hBk2
  have hrun : processList enc ⟨[], q0, []⟩ (A ++ (r₁ :: (B ++ (r₂ :: C)))) =
      Except.ok st' := by
    rw [processList_append, hA1]
    show processList enc stA (r₁ :: (B ++ r₂ :: C)) = _
    rw [processList, hstep1]
    show processList enc
      ⟨identOf r₁ :: stA.seen, check_for_low_scores stA.queue s2,
        dictSetD stA.valid (identOf r₁) s2⟩ (B ++ r₂ :: C) = _
    rw [processList_append, hB1]
    show processList enc stB (r₂ :: C) = _
    rw [processList, hstep2]
    exact hC1
  refine ⟨stA, st', e₁, F₁, F₂, hA1, he₁, ?_, hCvalid, ?_, hCk1, hCk2, ?_⟩
  · unfold process_student_data
    rw [hrun]
    show Except.ok (st'.valid.map Prod.snd, st') = _
    rw [hCvalid]
  · rw [hClen, hBlen]
  · intro k
    rw [getField_dictUpdate r₂ hu2 s2 k]
    cases hg : getField r₂ k with
    | some v => simp [Option.orElse]
    | none =>
      have hkne : k ≠ "email" := by
        intro hke
        rw [hke, he₂] at hg
        exact Option.noConfusion hg
      simp only [Option.orElse, Option.none_orElse]
      rw [hs2, getField_dictSet_ne r₁ "email" k _ hkne]

/-- C1 witness: a two-record run where both records share the identity
`("Ann", "Bell", "a@b.c")`; the theorem is instantiated on the empty
surrounding sublists. -/
theorem claim_C1_witness :
    ∃ (stA st' : PState) (e₁ : String) (D₁ D₂ : List (Ident × Record)),
      processList (fun x => String.append x x) ⟨[], [], []⟩ [] = Except.ok stA ∧
      getField [("id", Value.num 1), ("first_name", Value.str "Ann"),
        ("last_name", Value.str "Bell"), ("email", Value.str "a@b.c")] "email" = some (Value.str e₁) ∧
      process_student_data (fun x => String.append x x) [] []
          ([] ++ ([("id", Value.num 1), ("first_name", Value.str "Ann"),
        ("last_name", Value.str "Bell"), ("email", Value.str "a@b.c")] :: ([] ++ ([("id", Value.num 7), ("first_name", Value.str "Ann"),
        ("last_name", Value.str "Bell"), ("email", Value.str "a@b.c"),
        ("math_score", Value.num 95)] :: [])))) =
        Except.ok
          ((D₁ ++ (identOf [("id", Value.num 1), ("first_name", Value.str "Ann"),
        ("last_name", Value.str "Bell"), ("email", Value.str "a@b.c")],
              dictUpdate (dictSet [("id", Value.num 1), ("first_name", Value.str "Ann"),
        ("last_name", Value.str "Bell"), ("email", Value.str "a@b.c")] "email"
                (Value.str ((fun x => String.append x x) e₁))) [("id", Value.num 7), ("first_name", Value.str "Ann"),
        ("last_name", Value.str "Bell"), ("email", Value.str "a@b.c"),
        ("math_score", Value.num 95)]) :: D₂).map
            Prod.snd, st') ∧
      st'.valid =
        D₁ ++ (identOf [("id", Value.num 1), ("first_name", Value.str "Ann"),
        ("last_name", Value.str "Bell"), ("email", Value.str "a@b.c")],
          dictUpdate (dictSet [("id", Value.num 1), ("first_name", Value.str "Ann"),
        ("last_name", Value.str "Bell"), ("email", Value.str "a@b.c")] "email"
            (Value.str ((fun x => String.append x x) e₁))) [("id", Value.num 7), ("first_name", Value.str "Ann"),
        ("last_name", Value.str "Bell"), ("email", Value.str "a@b.c"),
        ("math_score", Value.num 95)]) :: D₂ ∧
      D₁.length = stA.valid.length ∧
      (∀ p ∈ D₁, p.1 ≠ identOf [("id", Value.num 1), ("first_name", Value.str "Ann"),
        ("last_name", Value.str "Bell"), ("email", Value.str "a@b.c")]) ∧ (∀ p ∈ D₂, p.1 ≠ identOf [("id", Value.num 1), ("first_name", Value.str "Ann"),
        ("last_name", Value.str "Bell"), ("email", Value.str "a@b.c")]) ∧
      (∀ k : String,
        getField (dictUpdate (dictSet [("id", Value.num 1), ("first_name", Value.str "Ann"),
        ("last_name", Value.str "Bell"), ("email", Value.str "a@b.c")] "email"
            (Value.str ((fun x => String.append x x) e₁))) [("id", Value.num 7), ("first_name", Value.str "Ann"),
        ("last_name", Value.str "Bell"), ("email", Value.str "a@b.c"),
        ("math_score", Value.num 95)]) k =
          (getField [("id", Value.num 7), ("first_name", Value.str "Ann"),
        ("last_name", Value.str "Bell"), ("email", Value.str "a@b.c"),
        ("math_score", Value.num 95)] k).orElse (fun _ => getField [("id", Value.num 1), ("first_name", Value.str "Ann"),
        ("last_name", Value.str "Bell"), ("email", Value.str "a@b.c")] k)) :=
  claim_C1 (fun x => String.append x x) [] [] [] []
    [("id", Value.num 1), ("first_name", Value.str "Ann"),
        ("last_name", Value.str "Bell"), ("email", Value.str "a@b.c")]
    [("id", Value.num 7), ("first_name", Value.str "Ann"),
        ("last_name", Value.str "Bell"), ("email", Value.str "a@b.c"),
        ("math_score", Value.num 95)]
    (identOf [("id", Value.num 1), ("first_name", Value.str "Ann"),
        ("last_name", Value.str "Bell"), ("email", Value.str "a@b.c")])
    (fun r hr => absurd hr (List.not_mem_nil r))
    (fun r hr => absurd hr (List.not_mem_nil r))
    (fun r hr => absurd hr (List.not_mem_nil r))
    (by rfl) (by rfl) rfl (by rfl) (by unfold uniqKeys; decide)
